import Mathlib

/-!
# easy-i18n: plural-rule compiler and argument preprocessor

A shallow embedding of `i18n/printer.go` (`PluralRule`, `preArgs`, `Plural`, `NewPrinter`,
`Close`) together with the properties of the specification that were checked against it.

Modelling conventions

* A Go `string` is a Lean `String` (valid UTF-8 text); the regular expression engine
  works rune by rune, i.e. on `String.data`.
* A Go `int` is a 64-bit signed integer, embedded in `Int`.  The only arithmetic the
  program performs on an `int` is `rule.Pos - 1`, followed by a bounds-checked index;
  it can wrap only for `Pos = -2^63`, where both the wrapped and the unwrapped index
  are outside every slice, so the unwrapped value is used.
* A Go `interface{}` value is an `Arg`: the dynamic types the program distinguishes
  (`int`, `string`, `[]PluralRule`) and one constructor for every other dynamic type.
* A Go slice is its visible elements together with the elements of its backing array
  between `len` and `cap` (`Slice.spare`): the slice expression `args[0:n]` is legal
  up to the capacity, not the length.
* A run-time panic is an `Except.error` carrying the kind of `Fault`.
-/

namespace I18n

/-- PluralRule is the plural rule record of `printer.go`. -/
structure PluralRule where
  Pos : Int
  Expr : String
  Value : Int
  Text : String
deriving DecidableEq, Repr

/-- Arg is a value of type `interface{}`, by dynamic type. -/
inductive Arg where
  | int (v : Int)
  | str (s : String)
  | rules (rs : List PluralRule)
  | other (tag : Nat)
deriving DecidableEq, Repr

/-- Fault is the kind of run-time panic raised by the program. -/
inductive Fault where
  | indexOutOfRange
  | typeAssertion
  | sliceBounds
  | nilDereference
deriving DecidableEq, Repr

/-- Slice is a `[]interface{}`: `elems` are the `len` visible elements, `spare` the
elements of the backing array between `len` and `cap`. -/
structure Slice where
  elems : List Arg
  spare : List Arg
deriving DecidableEq, Repr

/-- The length `len(s)`. -/
def Slice.len (s : Slice) : Nat := s.elems.length

/-- The capacity `cap(s)`. -/
def Slice.cap (s : Slice) : Nat := s.elems.length + s.spare.length

/-- The backing array from the slice's start up to its capacity. -/
def Slice.backing (s : Slice) : List Arg := s.elems ++ s.spare

/-- A slice built by a plain variadic call `f(a, b, c)`: no spare capacity. -/
def Slice.ofList (l : List Arg) : Slice := ⟨l, []⟩

/-- The index expression `args[i]`, bounds-checked against the length. -/
def index (args : List Arg) (i : Int) : Except Fault Arg :=
  if 0 ≤ i then
    match args.get? i.toNat with
    | some a => .ok a
    | none => .error Fault.indexOutOfRange
  else .error Fault.indexOutOfRange

/-- The slice expression `args[0:n]`, bounds-checked against the capacity. -/
def Slice.upTo (s : Slice) (n : Nat) : Except Fault Slice :=
  if n ≤ s.cap then .ok ⟨s.backing.take n, s.backing.drop n⟩
  else .error Fault.sliceBounds

/-- The call `strings.Count(format, "%")`. -/
def countPercent (format : String) : Nat := format.data.count '%'

/-- The condition of the `if` in the rule loop of `preArgs`. -/
def ruleCond (rule : PluralRule) (curPosVal : Int) : Bool :=
  (rule.Expr == "=" && curPosVal == rule.Value) || (rule.Expr == ">" && curPosVal > rule.Value)

/-- The loop `for _, rule := range rules` of `preArgs`: the format on leaving the loop. -/
def evalRules (format : String) (args : List Arg) : List PluralRule → Except Fault String
  | [] => .ok format
  | rule :: rest =>
    match index args (rule.Pos - 1) with
    | .error e => .error e
    | .ok (Arg.int curPosVal) =>
      if ruleCond rule curPosVal then .ok rule.Text
      else evalRules format args rest
    | .ok _ => .error Fault.typeAssertion

/-- The function `preArgs`: preprocessing parameters in plural form. -/
def preArgs (format : String) (args : Slice) : Except Fault (String × Slice) :=
  if args.len > 0 then
    match args.elems.getLast? with
    | some (Arg.rules rules) =>
      match evalRules format args.elems rules with
      | .error e => .error e
      | .ok format' =>
        match args.upTo (countPercent format') with
        | .error e => .error e
        | .ok args' => .ok (format', args')
    | _ => .ok (format, args)
  else .ok (format, args)

/-! ## The regular expression `\[(\d+)\][^=>]\s*(\=|\>)\s*(\d+)$` -/

/-- The class `\d`: ASCII decimal digits. -/
def isDigit (c : Char) : Bool := decide ('0' ≤ c) && decide (c ≤ '9')

/-- The class `\s`: tab, newline, form feed, carriage return, space. -/
def isSpace (c : Char) : Bool :=
  c == '\t' || c == '\n' || c == Char.ofNat 12 || c == '\r' || c == ' '

/-- The alternation `(\=|\>)`, and the complement of the class `[^=>]`. -/
def isOp (c : Char) : Bool := c == '=' || c == '>'

/-- Submatch holds the three capture groups of a match: `matches[1..3]`. -/
structure Submatch where
  pos : String
  op : String
  value : String
deriving DecidableEq, Repr

/-- A match of the whole expression starting at the head of the input.  Every starred
or plussed class is followed by an item outside the class, so the greedy (longest)
repetition is the only one that can succeed. -/
def matchHere (s : List Char) : Option Submatch :=
  match s with
  | [] => none
  | b :: s1 =>
    if b == '[' then
      let d1 := s1.takeWhile isDigit
      match s1.dropWhile isDigit with
      | [] => none
      | e :: s2 =>
        if d1 ≠ [] ∧ e == ']' then
          match s2 with
          | [] => none
          | c :: s3 =>
            if isOp c then none
            else
              match s3.dropWhile isSpace with
              | [] => none
              | o :: s4 =>
                if isOp o then
                  let s5 := s4.dropWhile isSpace
                  if s5 ≠ [] ∧ s5.all isDigit then
                    some ⟨String.mk d1, String.mk [o], String.mk s5⟩
                  else none
                else none
        else none
    else none

/-- The leftmost match: the first start position at which the expression matches. -/
def findSubmatch : List Char → Option Submatch
  | [] => matchHere []
  | c :: s =>
    match matchHere (c :: s) with
    | some m => some m
    | none => findSubmatch s

/-- The call `re.FindStringSubmatch(expr)`. -/
def FindStringSubmatch (expr : String) : Option Submatch := findSubmatch expr.data

/-- The call `re.MatchString(expr)`. -/
def MatchString (expr : String) : Bool := (FindStringSubmatch expr).isSome

/-! ## `strconv.Atoi` on a 64-bit platform -/

/-- The largest `int`. -/
def maxInt : Nat := 2 ^ 63 - 1

/-- The value of a decimal digit character. -/
def digitVal (c : Char) : Nat := c.toNat - '0'.toNat

/-- The value of a string of decimal digits, most significant digit first. -/
def decimalValue (ds : List Char) : Nat := ds.foldl (fun n c => 10 * n + digitVal c) 0

/-- The unsigned value of a non-empty string of decimal digits; `none` is the syntax
error. -/
def parseDigits (ds : List Char) : Option Nat :=
  if ds ≠ [] ∧ ds.all isDigit then some (decimalValue ds) else none

/-- The call `strconv.Atoi(s)` with its error discarded: on a syntax error the value
is 0, on a range error it is the nearest representable `int`. -/
def Atoi (s : String) : Int :=
  match s.data with
  | [] => 0
  | c :: ds =>
    if c == '-' then
      match parseDigits ds with
      | none => 0
      | some v => if v ≤ maxInt + 1 then -(v : Int) else -((maxInt : Int) + 1)
    else
      match parseDigits (if c == '+' then ds else c :: ds) with
      | none => 0
      | some v => if v ≤ maxInt then (v : Int) else (maxInt : Int)

/-! ## `Plural` -/

/-- The rule appended by `Plural` for a matching expression. -/
def compileRule (m : Submatch) (text : String) : PluralRule :=
  { Pos := Atoi m.pos, Expr := m.op, Value := Atoi m.value, Text := text }

/-- The loop of `Plural`, on the not yet visited part `cases[i:]` and the rules
collected so far.  Note that `continue` is reached after a single `i++`. -/
def pluralLoop : List Arg → List PluralRule → Except Fault (List PluralRule)
  | [], rules => .ok rules
  | Arg.str _ :: [], rules => .ok rules
  | Arg.str expr :: Arg.str text :: rest, rules =>
    if !MatchString expr then pluralLoop (Arg.str text :: rest) rules
    else
      match FindStringSubmatch expr with
      | some m => pluralLoop rest (rules ++ [compileRule m text])
      | none => .error Fault.indexOutOfRange
  | Arg.str _ :: _ :: _, _ => .error Fault.typeAssertion
  | _ :: _, _ => .error Fault.typeAssertion

/-- The function `Plural`. -/
def Plural (cases : List Arg) : Except Fault (List PluralRule) := pluralLoop cases []

/-! ## Specification-side notions -/

/-- The argument a rule position designates: element `pos - 1` of the original
argument list, positions counted from 1. -/
def argAt (args : List Arg) (pos : Int) : Option Arg :=
  if 1 ≤ pos then args.get? (pos - 1).toNat else none

/-- The rule references an in-range `int` argument. -/
def refersToInt (args : List Arg) (r : PluralRule) : Bool :=
  match argAt args r.Pos with
  | some (Arg.int _) => true
  | _ => false

/-- The comparison of a rule holds, in the words of the specification: operator `=`
with the argument equal to the threshold, or operator `>` with the argument strictly
greater. -/
def ruleHolds (args : List Arg) (r : PluralRule) : Bool :=
  match argAt args r.Pos with
  | some (Arg.int v) =>
    decide ((r.Expr = "=" ∧ v = r.Value) ∨ (r.Expr = ">" ∧ v > r.Value))
  | _ => false

/-- The rules examined by an in-order evaluation: all rules up to and including the
first whose comparison holds. -/
def examined (args : List Arg) : List PluralRule → List PluralRule
  | [] => []
  | r :: rest => if ruleHolds args r then [r] else r :: examined args rest

/-- The format selected according to the specification: the template of the first
rule in list order whose comparison holds, the default format when there is none. -/
def selectFormat (format : String) (args : List Arg) (rules : List PluralRule) : String :=
  match rules.find? (ruleHolds args) with
  | some r => r.Text
  | none => format

/-- The characters of an expression `[N]c w1 op w2 M`. -/
def exprChars (N : List Char) (c : Char) (w1 : List Char) (op : Char) (w2 M : List Char) :
    List Char :=
  '[' :: (N ++ ']' :: c :: (w1 ++ op :: (w2 ++ M)))

/-- The expression grammar in the words of the specification:
`[<position>]<any-char><operator><threshold>`, position and threshold non-empty
strings of ASCII digits, any-char any single character, the operator `=` or `>`
optionally surrounded by whitespace. -/
def WellFormedAsStated (e : String) : Prop :=
  ∃ (N : List Char) (c : Char) (w1 : List Char) (op : Char) (w2 M : List Char),
    e.data = exprChars N c w1 op w2 M ∧ N ≠ [] ∧ N.all isDigit = true ∧
      w1.all isSpace = true ∧ isOp op = true ∧ w2.all isSpace = true ∧
      M ≠ [] ∧ M.all isDigit = true

/-- The expression grammar with the restriction the regular expression puts on
any-char: a single character other than `=` and `>`. -/
def WellFormed (e : String) : Prop :=
  ∃ (N : List Char) (c : Char) (w1 : List Char) (op : Char) (w2 M : List Char),
    e.data = exprChars N c w1 op w2 M ∧ N ≠ [] ∧ N.all isDigit = true ∧ isOp c = false ∧
      w1.all isSpace = true ∧ isOp op = true ∧ w2.all isSpace = true ∧
      M ≠ [] ∧ M.all isDigit = true

/-- The rule compiled from one (expression, template) pair, when the expression
matches. -/
def compilePair (expr text : String) : Option PluralRule :=
  (FindStringSubmatch expr).map (fun m => compileRule m text)

/-- The flat argument sequence `e1, t1, e2, t2, ...` of a list of pairs. -/
def flatten : List (String × String) → List Arg
  | [] => []
  | p :: ps => Arg.str p.1 :: Arg.str p.2 :: flatten ps

/-- Rule `r` is compiled from the element at index `j` of `cases`, a matching
expression, with the element at index `j + 1` as its template. -/
def PairedAt (cases : List String) (j : Nat) (r : PluralRule) : Prop :=
  ∃ e t, cases.get? j = some e ∧ cases.get? (j + 1) = some t ∧ MatchString e = true ∧
    compilePair e t = some r ∧ r.Text = t

/-! ## The printer handle and its pool

`language.Tag`, `language.Make` and `message.NewPrinter` belong to external packages:
the tag and engine types, the zero tag, `Make` and the engine constructor `newEngine`
are parameters.  A `*Printer` is an address into the heap of allocated `Printer`
structs; the pool `ppFree` holds the addresses put into it and not yet taken out. -/

/-- LangArg is the argument `lang interface{}` of `NewPrinter`, by dynamic type. -/
inductive LangArg (Tag : Type) where
  | tag (t : Tag)
  | str (s : String)
  | other (n : Nat)

set_option linter.dupNamespace false in
/-- Printer is the struct `Printer`: the engine pointer (`none` for nil) and the state
of the embedded mutex. -/
structure Printer (Engine : Type) where
  Printer : Option Engine
  locked : Bool

/-- World is the part of the program state `NewPrinter` and `Close` work on. -/
structure World (Engine : Type) where
  heap : List (Printer Engine)
  ppFree : List Nat

/-- Every address in the pool is an allocated handle. -/
def World.wf {Engine : Type} (w : World Engine) : Prop := ∀ a ∈ w.ppFree, a < w.heap.length

/-- The function `New` of the pool: `new(Printer)`, a zero `Printer` at a fresh
address. -/
def poolNew {Engine : Type} (w : World Engine) : Nat × World Engine :=
  (w.heap.length, { w with heap := w.heap ++ [⟨none, false⟩] })

/-- The call `ppFree.Get()`: the pool hands out the item it chooses (`pick` is the index
of that item in the pool) and removes it; when it chooses none, or is empty, the
result is that of `New`. -/
def poolGet {Engine : Type} (w : World Engine) (pick : Option Nat) : Nat × World Engine :=
  match pick with
  | some i =>
    match w.ppFree.get? i with
    | some a => (a, { w with ppFree := w.ppFree.eraseIdx i })
    | none => poolNew w
  | none => poolNew w

/-- The `switch _lang := lang.(type)` of `NewPrinter`. -/
def langTagOf {Tag : Type} (zeroTag : Tag) (Make : String → Tag) : LangArg Tag → Tag
  | LangArg.tag t => t
  | LangArg.str s => Make s
  | LangArg.other _ => zeroTag

/-- The function `NewPrinter`: the handle returned and the state after the call. -/
def NewPrinter {Tag Engine : Type} (zeroTag : Tag) (Make : String → Tag)
    (newEngine : Tag → Engine) (lang : LangArg Tag) (pick : Option Nat) (w : World Engine) :
    Except Fault (Nat × World Engine) :=
  let (p, w1) := poolGet w pick
  let langTag := langTagOf zeroTag Make lang
  match w1.heap.get? p with
  | some obj =>
    .ok (p, { w1 with heap := w1.heap.set p { obj with Printer := some (newEngine langTag) } })
  | none => .error Fault.nilDereference

/-- The method `Close`: `ppFree.Put(p)`. -/
def Close {Engine : Type} (p : Nat) (w : World Engine) : World Engine :=
  { w with ppFree := p :: w.ppFree }

/-! ## Auxiliary lemmas -/

theorem index_eq_argAt (args : List Arg) (pos : Int) :
    index args (pos - 1) =
      match argAt args pos with
      | some a => .ok a
      | none => .error Fault.indexOutOfRange := by
  unfold index argAt
  by_cases h : 1 ≤ pos
  · have h0 : 0 ≤ pos - 1 := by omega
    simp only [h, h0, if_true]
  · have h0 : ¬ 0 ≤ pos - 1 := by omega
    simp only [h, h0, if_false]

theorem ruleCond_eq (r : PluralRule) (v : Int) :
    ruleCond r v = decide ((r.Expr = "=" ∧ v = r.Value) ∨ (r.Expr = ">" ∧ v > r.Value)) := by
  unfold ruleCond
  rw [Bool.eq_iff_iff]
  simp

theorem evalRules_eq_selectFormat (format : String) (args : List Arg) (rules : List PluralRule)
    (h : ∀ r ∈ examined args rules, refersToInt args r = true) :
    evalRules format args rules = .ok (selectFormat format args rules) := by
  induction rules with
  | nil => rfl
  | cons r rest ih =>
    have hr : refersToInt args r = true := by
      apply h
      unfold examined
      split <;> simp
    unfold refersToInt at hr
    unfold evalRules
    rw [index_eq_argAt]
    cases harg : argAt args r.Pos with
    | none => simp [harg] at hr
    | some a =>
      cases a with
      | int v =>
        have hh : ruleHolds args r = ruleCond r v := by
          unfold ruleHolds; rw [harg, ruleCond_eq]
        by_cases hc : ruleCond r v = true
        · simp [hc, selectFormat, List.find?, hh]
        · have hc' : ruleCond r v = false := by simpa using hc
          have hrest : ∀ r' ∈ examined args rest, refersToInt args r' = true := by
            intro r' hr'
            apply h
            unfold examined
            simp [hh, hc', hr']
          simp [hc', ih hrest, selectFormat, List.find?, hh]
      | str s => simp [harg] at hr
      | rules rs => simp [harg] at hr
      | other t => simp [harg] at hr

theorem preArgs_rules (format : String) (front : List Arg) (rules : List PluralRule)
    (spare : List Arg) :
    preArgs format ⟨front ++ [Arg.rules rules], spare⟩ =
      match evalRules format (front ++ [Arg.rules rules]) rules with
      | .error e => .error e
      | .ok format' =>
        match Slice.upTo ⟨front ++ [Arg.rules rules], spare⟩ (countPercent format') with
        | .error e => .error e
        | .ok args' => .ok (format', args') := by
  unfold preArgs
  simp [Slice.len]

theorem upTo_ok_iff (s : Slice) (n : Nat) (out : Slice) :
    s.upTo n = .ok out ↔ n ≤ s.cap ∧ out = ⟨s.backing.take n, s.backing.drop n⟩ := by
  unfold Slice.upTo
  by_cases h : n ≤ s.cap
  · simp only [h, if_true, true_and]
    constructor
    · intro e; injection e with e; exact e.symm
    · intro e; rw [e]
  · simp only [h, if_false, false_and]
    constructor
    · intro e; cases e
    · intro e; exact e.elim

theorem preArgs_rules_ok (format : String) (front : List Arg) (rules : List PluralRule)
    (spare : List Arg) (f' : String) (out : Slice)
    (h : preArgs format ⟨front ++ [Arg.rules rules], spare⟩ = .ok (f', out)) :
    evalRules format (front ++ [Arg.rules rules]) rules = .ok f' ∧
      countPercent f' ≤ (front ++ [Arg.rules rules]).length + spare.length ∧
      out = ⟨(front ++ [Arg.rules rules] ++ spare).take (countPercent f'),
             (front ++ [Arg.rules rules] ++ spare).drop (countPercent f')⟩ := by
  rw [preArgs_rules] at h
  cases he : evalRules format (front ++ [Arg.rules rules]) rules with
  | error e => simp [he] at h
  | ok g =>
    cases hu : Slice.upTo ⟨front ++ [Arg.rules rules], spare⟩ (countPercent g) with
    | error e => simp [he, hu] at h
    | ok o =>
      simp only [he, hu] at h
      injection h with h
      injection h with h1 h2
      subst h1; subst h2
      rw [upTo_ok_iff] at hu
      exact ⟨rfl, hu.1, hu.2⟩

theorem not_refersToInt_of_bad (args : List Arg) (bad : PluralRule)
    (hbad : bad.Pos = 0 ∨ (args.length : Int) < bad.Pos ∨
      (∃ a, argAt args bad.Pos = some a ∧ ∀ v, a ≠ Arg.int v)) :
    refersToInt args bad = false := by
  unfold refersToInt
  rcases hbad with h | h | ⟨a, ha, hne⟩
  · simp [argAt, h]
  · have : argAt args bad.Pos = none := by
      unfold argAt
      split
      · rw [List.get?_eq_none]
        omega
      · rfl
    rw [this]
  · rw [ha]
    cases a with
    | int v => exact absurd rfl (hne v)
    | str s => rfl
    | rules rs => rfl
    | other t => rfl

theorem argAt_last (front : List Arg) (a : Arg) (pos : Int)
    (h : pos = ((front ++ [a]).length : Int)) : argAt (front ++ [a]) pos = some a := by
  unfold argAt
  have h1 : 1 ≤ pos := by rw [h]; simp
  have h2 : (pos - 1).toNat = front.length := by
    rw [h]; simp
  simp [h1, h2]

theorem evalRules_fault (format : String) (args : List Arg) (pre post : List PluralRule)
    (bad : PluralRule) (hpre : ∀ r ∈ pre, ruleHolds args r = false)
    (hbad : refersToInt args bad = false) :
    ∃ e, evalRules format args (pre ++ bad :: post) = .error e := by
  induction pre with
  | nil =>
    simp only [List.nil_append]
    unfold evalRules
    rw [index_eq_argAt]
    unfold refersToInt at hbad
    cases harg : argAt args bad.Pos with
    | none => exact ⟨_, rfl⟩
    | some a =>
      cases a with
      | int v => simp [harg] at hbad
      | str s => exact ⟨_, rfl⟩
      | rules rs => exact ⟨_, rfl⟩
      | other t => exact ⟨_, rfl⟩
  | cons r rest ih =>
    have hrest : ∀ r' ∈ rest, ruleHolds args r' = false :=
      fun r' hr' => hpre r' (List.mem_cons_of_mem _ hr')
    have hr : ruleHolds args r = false := hpre r (List.mem_cons_self _ _)
    simp only [List.cons_append]
    unfold evalRules
    rw [index_eq_argAt]
    unfold ruleHolds at hr
    cases harg : argAt args r.Pos with
    | none => exact ⟨_, rfl⟩
    | some a =>
      cases a with
      | int v =>
        rw [harg] at hr
        have hc : ruleCond r v = false := by rw [ruleCond_eq]; exact hr
        simp only [hc]
        exact ih hrest
      | str s => exact ⟨_, rfl⟩
      | rules rs => exact ⟨_, rfl⟩
      | other t => exact ⟨_, rfl⟩

theorem examined_append_match (args : List Arg) (pre post : List PluralRule) (m : PluralRule)
    (hpre : ∀ r ∈ pre, ruleHolds args r = false) (hm : ruleHolds args m = true) :
    examined args (pre ++ m :: post) = pre ++ [m] := by
  induction pre with
  | nil => simp [examined, hm]
  | cons r rest ih =>
    have hr : ruleHolds args r = false := hpre r (List.mem_cons_self _ _)
    have ih' := ih (fun r' hr' => hpre r' (List.mem_cons_of_mem _ hr'))
    rw [List.cons_append]
    unfold examined
    rw [hr, ih']
    simp

theorem selectFormat_append_match (format : String) (args : List Arg)
    (pre post : List PluralRule) (m : PluralRule)
    (hpre : ∀ r ∈ pre, ruleHolds args r = false) (hm : ruleHolds args m = true) :
    selectFormat format args (pre ++ m :: post) = m.Text := by
  induction pre with
  | nil => simp [selectFormat, List.find?, hm]
  | cons r rest ih =>
    have hr : ruleHolds args r = false := hpre r (List.mem_cons_self _ _)
    have ih' := ih (fun r' hr' => hpre r' (List.mem_cons_of_mem _ hr'))
    unfold selectFormat at ih' ⊢
    simp only [List.cons_append, List.find?, hr]
    exact ih'

theorem refersToInt_of_ruleHolds (args : List Arg) (r : PluralRule)
    (h : ruleHolds args r = true) : refersToInt args r = true := by
  unfold ruleHolds at h
  unfold refersToInt
  cases harg : argAt args r.Pos with
  | none => simp [harg] at h
  | some a =>
    cases a with
    | int v => rfl
    | str s => simp [harg] at h
    | rules rs => simp [harg] at h
    | other t => simp [harg] at h

theorem preArgs_of_evalRules_ok (format : String) (front : List Arg)
    (rules : List PluralRule) (spare : List Arg) (g : String)
    (he : evalRules format (front ++ [Arg.rules rules]) rules = .ok g) :
    preArgs format ⟨front ++ [Arg.rules rules], spare⟩ =
      if countPercent g ≤ (front ++ [Arg.rules rules]).length + spare.length then
        .ok (g, ⟨(front ++ [Arg.rules rules] ++ spare).take (countPercent g),
                 (front ++ [Arg.rules rules] ++ spare).drop (countPercent g)⟩)
      else .error Fault.sliceBounds := by
  rw [preArgs_rules, he]
  simp only [Slice.upTo, Slice.cap, Slice.backing]
  by_cases hc : countPercent g ≤ (front ++ [Arg.rules rules]).length + spare.length
  · simp only [hc, if_true]
  · simp only [hc, if_false]

theorem takeWhile_append_stop {p : Char → Bool} (l : List Char) (a : Char) (r : List Char)
    (hl : l.all p = true) (ha : p a = false) : (l ++ a :: r).takeWhile p = l := by
  induction l with
  | nil => simp [List.takeWhile, ha]
  | cons x xs ih =>
    simp only [List.all_cons, Bool.and_eq_true] at hl
    simp [List.takeWhile, hl.1, ih hl.2]

theorem dropWhile_append_stop {p : Char → Bool} (l : List Char) (a : Char) (r : List Char)
    (hl : l.all p = true) (ha : p a = false) : (l ++ a :: r).dropWhile p = a :: r := by
  induction l with
  | nil => simp [List.dropWhile, ha]
  | cons x xs ih =>
    simp only [List.all_cons, Bool.and_eq_true] at hl
    simp [List.dropWhile, hl.1, ih hl.2]

theorem isSpace_of_isDigit (c : Char) (h : isDigit c = true) : isSpace c = false := by
  cases hs : isSpace c with
  | false => rfl
  | true =>
    exfalso
    simp only [isSpace, Bool.or_eq_true, beq_iff_eq] at hs
    rcases hs with (((hs | hs) | hs) | hs) | hs <;> (subst hs; revert h; decide)

theorem isSpace_of_isOp (c : Char) (h : isOp c = true) : isSpace c = false := by
  simp only [isOp, Bool.or_eq_true, beq_iff_eq] at h
  rcases h with h | h <;> (subst h; decide)

theorem isDigit_of_isOp (c : Char) (h : isOp c = true) : isDigit c = false := by
  simp only [isOp, Bool.or_eq_true, beq_iff_eq] at h
  rcases h with h | h <;> (subst h; decide)

theorem dropWhile_space_digits (w M : List Char) (hw : w.all isSpace = true)
    (hM : M.all isDigit = true) : (w ++ M).dropWhile isSpace = M := by
  cases M with
  | nil =>
    simp only [List.append_nil]
    induction w with
    | nil => rfl
    | cons x xs ih =>
      simp only [List.all_cons, Bool.and_eq_true] at hw
      simp [List.dropWhile, hw.1, ih hw.2]
  | cons d ds =>
    simp only [List.all_cons, Bool.and_eq_true] at hM
    exact dropWhile_append_stop w d ds hw (isSpace_of_isDigit d hM.1)

theorem matchHere_exprChars (N : List Char) (c : Char) (w1 : List Char) (op : Char)
    (w2 M : List Char) (hN : N ≠ []) (hNd : N.all isDigit = true) (hc : isOp c = false)
    (hw1 : w1.all isSpace = true) (hop : isOp op = true) (hw2 : w2.all isSpace = true)
    (hM : M ≠ []) (hMd : M.all isDigit = true) :
    matchHere (exprChars N c w1 op w2 M) = some ⟨String.mk N, String.mk [op], String.mk M⟩ := by
  have hb : isDigit ']' = false := by decide
  unfold matchHere exprChars
  simp only [beq_self_eq_true, if_true]
  rw [takeWhile_append_stop N ']' _ hNd hb, dropWhile_append_stop N ']' _ hNd hb]
  simp only [hN, ne_eq, not_false_eq_true, beq_self_eq_true, and_self, if_true, hc]
  rw [dropWhile_append_stop w1 op _ hw1 (isSpace_of_isOp op hop)]
  simp only [hop, if_true]
  rw [dropWhile_space_digits w2 M hw2 hMd]
  simp [hM, hMd]

theorem findSubmatch_exprChars (N : List Char) (c : Char) (w1 : List Char) (op : Char)
    (w2 M : List Char) (hN : N ≠ []) (hNd : N.all isDigit = true) (hc : isOp c = false)
    (hw1 : w1.all isSpace = true) (hop : isOp op = true) (hw2 : w2.all isSpace = true)
    (hM : M ≠ []) (hMd : M.all isDigit = true) :
    findSubmatch (exprChars N c w1 op w2 M) =
      some ⟨String.mk N, String.mk [op], String.mk M⟩ := by
  have h := matchHere_exprChars N c w1 op w2 M hN hNd hc hw1 hop hw2 hM hMd
  unfold exprChars at h ⊢
  unfold findSubmatch
  rw [h]

theorem plural_two_rules (A B : String) :
    Plural [Arg.str "[1]d=1", Arg.str A, Arg.str "[1]d>1", Arg.str B] =
      .ok [⟨1, "=", 1, A⟩, ⟨1, ">", 1, B⟩] := rfl

theorem evalRules_two_rules (A B f : String) (n : Int) :
    evalRules f [Arg.int n, Arg.rules [⟨1, "=", 1, A⟩, ⟨1, ">", 1, B⟩]]
        [⟨1, "=", 1, A⟩, ⟨1, ">", 1, B⟩] =
      .ok (if n = 1 then A else if n > 1 then B else f) := by
  have hi : index [Arg.int n, Arg.rules [⟨1, "=", 1, A⟩, ⟨1, ">", 1, B⟩]] ((1 : Int) - 1) =
      .ok (Arg.int n) := rfl
  have h1 : ∀ T : String, ruleCond ⟨1, "=", 1, T⟩ n = decide (n = 1) := by
    intro T; rw [ruleCond_eq]; simp
  have h2 : ∀ T : String, ruleCond ⟨1, ">", 1, T⟩ n = decide (n > 1) := by
    intro T; rw [ruleCond_eq]; simp
  unfold evalRules
  simp only [hi, h1]
  by_cases hn : n = 1
  · simp [hn]
  · unfold evalRules
    simp only [hi, h2, hn, decide_False, Bool.false_eq_true, if_false]
    by_cases hg : n > 1
    · simp [hg]
    · simp [hg, evalRules]

theorem preArgs_two_rules (A B f : String) (n : Int) (spare : List Arg) (g : String)
    (hg : (if n = 1 then A else if n > 1 then B else f) = g) (hc : countPercent g ≤ 2) :
    preArgs f ⟨[Arg.int n, Arg.rules [⟨1, "=", 1, A⟩, ⟨1, ">", 1, B⟩]], spare⟩ =
      .ok (g, ⟨([Arg.int n, Arg.rules [⟨1, "=", 1, A⟩, ⟨1, ">", 1, B⟩]] ++ spare).take
                (countPercent g),
              ([Arg.int n, Arg.rules [⟨1, "=", 1, A⟩, ⟨1, ">", 1, B⟩]] ++ spare).drop
                (countPercent g)⟩) := by
  have he := evalRules_two_rules A B f n
  rw [hg] at he
  have h := preArgs_of_evalRules_ok f [Arg.int n] [⟨1, "=", 1, A⟩, ⟨1, ">", 1, B⟩] spare g he
  have hc' : countPercent g ≤
      ([Arg.int n] ++ [Arg.rules [⟨1, "=", 1, A⟩, ⟨1, ">", 1, B⟩]]).length + spare.length := by
    simp only [List.length_append, List.length_singleton]
    omega
  rw [if_pos hc'] at h
  exact h

theorem decimalValue_snoc (l : List Char) (d : Char) :
    decimalValue (l ++ [d]) = 10 * decimalValue l + digitVal d := by
  simp [decimalValue, List.foldl_append]

theorem digitChar_isDigit (k : Nat) (hk : k < 10) :
    isDigit (Nat.digitChar k) = true ∧ digitVal (Nat.digitChar k) = k := by
  interval_cases k <;> decide

theorem toDigitsCore_spec (fuel : Nat) : ∀ (n : Nat) (ds : List Char), n < fuel →
    ∃ l, Nat.toDigitsCore 10 fuel n ds = l ++ ds ∧ l ≠ [] ∧ l.all isDigit = true ∧
      decimalValue l = n := by
  induction fuel with
  | zero => intro n ds h; omega
  | succ fuel ih =>
    intro n ds h
    obtain ⟨hd, hv⟩ := digitChar_isDigit (n % 10) (Nat.mod_lt _ (by decide))
    unfold Nat.toDigitsCore
    by_cases h0 : n / 10 = 0
    · refine ⟨[Nat.digitChar (n % 10)], ?_, by simp, by simp [hd], ?_⟩
      · simp [h0]
      · simp only [decimalValue, List.foldl, hv]
        omega
    · have hlt : n / 10 < fuel := by omega
      obtain ⟨l, hl, hne, hall, hval⟩ := ih (n / 10) (Nat.digitChar (n % 10) :: ds) hlt
      refine ⟨l ++ [Nat.digitChar (n % 10)], ?_, by simp, ?_, ?_⟩
      · simp [h0, hl]
      · simp [List.all_append, hall, hd]
      · rw [decimalValue_snoc, hval, hv]
        omega

theorem toDigits_spec (n : Nat) :
    Nat.toDigits 10 n ≠ [] ∧ (Nat.toDigits 10 n).all isDigit = true ∧
      decimalValue (Nat.toDigits 10 n) = n := by
  obtain ⟨l, hl, hne, hall, hval⟩ := toDigitsCore_spec (n + 1) n [] (Nat.lt_succ_self n)
  unfold Nat.toDigits
  rw [hl, List.append_nil]
  exact ⟨hne, hall, hval⟩

theorem Atoi_digits (ds : List Char) (hne : ds ≠ []) (hd : ds.all isDigit = true) :
    Atoi (String.mk ds) =
      if decimalValue ds ≤ maxInt then (decimalValue ds : Int) else (maxInt : Int) := by
  cases ds with
  | nil => exact absurd rfl hne
  | cons c cs =>
    have hc : isDigit c = true := by
      simp only [List.all_cons, Bool.and_eq_true] at hd
      exact hd.1
    have h1 : (c == '-') = false := by
      cases h : c == '-' with
      | false => rfl
      | true => rw [beq_iff_eq] at h; subst h; revert hc; decide
    have h2 : (c == '+') = false := by
      cases h : c == '+' with
      | false => rfl
      | true => rw [beq_iff_eq] at h; subst h; revert hc; decide
    have hp : parseDigits (c :: cs) = some (decimalValue (c :: cs)) := by
      unfold parseDigits
      rw [if_pos ⟨hne, hd⟩]
    simp only [Atoi, h1, h2, Bool.false_eq_true, if_false, hp]

theorem Atoi_repr (n : Nat) (h : n < 2 ^ 63) : Atoi (Nat.repr n) = (n : Int) := by
  obtain ⟨hne, hall, hval⟩ := toDigits_spec n
  have : Nat.repr n = String.mk (Nat.toDigits 10 n) := rfl
  rw [this, Atoi_digits _ hne hall, hval]
  have : n ≤ maxInt := by unfold maxInt; omega
  simp [this]

theorem findStringSubmatch_of_data (e : String) (N : List Char) (c : Char) (w1 : List Char)
    (op : Char) (w2 M : List Char) (he : e.data = exprChars N c w1 op w2 M)
    (hN : N ≠ []) (hNd : N.all isDigit = true) (hc : isOp c = false)
    (hw1 : w1.all isSpace = true) (hop : isOp op = true) (hw2 : w2.all isSpace = true)
    (hM : M ≠ []) (hMd : M.all isDigit = true) :
    FindStringSubmatch e = some ⟨String.mk N, String.mk [op], String.mk M⟩ := by
  unfold FindStringSubmatch
  rw [he]
  exact findSubmatch_exprChars N c w1 op w2 M hN hNd hc hw1 hop hw2 hM hMd

theorem findStringSubmatch_wellFormed (e : String) (h : WellFormed e) :
    ∃ m, FindStringSubmatch e = some m := by
  obtain ⟨N, c, w1, op, w2, M, he, hN, hNd, hc, hw1, hop, hw2, hM, hMd⟩ := h
  exact ⟨_, findStringSubmatch_of_data e N c w1 op w2 M he hN hNd hc hw1 hop hw2 hM hMd⟩

theorem pluralLoop_match (expr text : String) (rest : List Arg) (acc : List PluralRule)
    (m : Submatch) (hm : FindStringSubmatch expr = some m) :
    pluralLoop (Arg.str expr :: Arg.str text :: rest) acc =
      pluralLoop rest (acc ++ [compileRule m text]) := by
  rw [pluralLoop]
  simp [MatchString, hm]

theorem pluralLoop_no_match (expr text : String) (rest : List Arg) (acc : List PluralRule)
    (hm : FindStringSubmatch expr = none) :
    pluralLoop (Arg.str expr :: Arg.str text :: rest) acc =
      pluralLoop (Arg.str text :: rest) acc := by
  rw [pluralLoop]
  simp [MatchString, hm]

theorem pluralLoop_flatten (pairs : List (String × String))
    (h : ∀ p ∈ pairs, WellFormed p.1) : ∀ acc : List PluralRule,
    ∃ rs, pluralLoop (flatten pairs) acc = .ok (acc ++ rs) ∧
      List.Forall₂ (fun p r => compilePair p.1 p.2 = some r ∧ r.Text = p.2) pairs rs := by
  induction pairs with
  | nil =>
    intro acc
    exact ⟨[], by simp [flatten, pluralLoop], List.Forall₂.nil⟩
  | cons p ps ih =>
    intro acc
    obtain ⟨m, hm⟩ := findStringSubmatch_wellFormed p.1 (h p (List.mem_cons_self _ _))
    obtain ⟨rs, hrs, hall⟩ :=
      ih (fun q hq => h q (List.mem_cons_of_mem _ hq)) (acc ++ [compileRule m p.2])
    refine ⟨compileRule m p.2 :: rs, ?_, ?_⟩
    · unfold flatten
      rw [pluralLoop_match p.1 p.2 _ acc m hm, hrs]
      simp
    · refine List.Forall₂.cons ⟨?_, rfl⟩ hall
      simp [compilePair, hm]

theorem evalRules_no_match (format : String) (args : List Arg) (rules : List PluralRule)
    (hno : ∀ r ∈ rules, ruleHolds args r = false) (g : String)
    (h : evalRules format args rules = .ok g) : g = format := by
  induction rules with
  | nil =>
    unfold evalRules at h
    injection h with h
    exact h.symm
  | cons r rest ih =>
    have hr : ruleHolds args r = false := hno r (List.mem_cons_self _ _)
    unfold evalRules at h
    rw [index_eq_argAt] at h
    unfold ruleHolds at hr
    cases harg : argAt args r.Pos with
    | none => simp [harg] at h
    | some a =>
      cases a with
      | int v =>
        rw [harg] at hr
        have hc : ruleCond r v = false := by rw [ruleCond_eq]; exact hr
        simp only [harg, hc] at h
        exact ih (fun r' hr' => hno r' (List.mem_cons_of_mem _ hr')) h
      | str s => simp [harg] at h
      | rules rs => simp [harg] at h
      | other t => simp [harg] at h

theorem mem_of_mem_examined (args : List Arg) (rules : List PluralRule) (r : PluralRule)
    (hr : r ∈ examined args rules) : r ∈ rules := by
  induction rules with
  | nil => simp [examined] at hr
  | cons a rest ih =>
    unfold examined at hr
    split at hr
    · simp only [List.mem_singleton] at hr
      rw [hr]; exact List.mem_cons_self _ _
    · rcases List.mem_cons.1 hr with h | h
      · rw [h]; exact List.mem_cons_self _ _
      · exact List.mem_cons_of_mem _ (ih h)

theorem matchHere_of_ne_bracket (c : Char) (s : List Char) (h : c ≠ '[') :
    matchHere (c :: s) = none := by
  unfold matchHere
  simp [h]

theorem findSubmatch_nil : findSubmatch [] = none := rfl

theorem findSubmatch_skip (pre s : List Char) (h : ∀ x ∈ pre, x ≠ '[') :
    findSubmatch (pre ++ s) = findSubmatch s := by
  induction pre with
  | nil => rfl
  | cons c cs ih =>
    have hc : c ≠ '[' := h c (List.mem_cons_self _ _)
    rw [List.cons_append, findSubmatch, matchHere_of_ne_bracket c _ hc]
    exact ih (fun x hx => h x (List.mem_cons_of_mem _ hx))

theorem takeWhile_all (p : Char → Bool) (l : List Char) : (l.takeWhile p).all p = true := by
  induction l with
  | nil => rfl
  | cons x xs ih =>
    rw [List.takeWhile_cons]
    split
    · simp only [List.all_cons, Bool.and_eq_true]
      exact ⟨by assumption, ih⟩
    · rfl

theorem getLast?_dropWhile (p : Char → Bool) (l : List Char) (h : l.dropWhile p ≠ []) :
    l.getLast? = (l.dropWhile p).getLast? := by
  induction l with
  | nil => rfl
  | cons x xs ih =>
    rw [List.dropWhile_cons] at h ⊢
    split
    · rename_i hx
      simp only [hx, if_true] at h
      rw [← ih h]
      cases xs with
      | nil => simp at h
      | cons y ys => simp [List.getLast?_cons_cons]
    · rfl

theorem getLast?_all (p : Char → Bool) (l : List Char) (hne : l ≠ []) (h : l.all p = true) :
    ∃ d, l.getLast? = some d ∧ p d = true := by
  refine ⟨l.getLast hne, List.getLast?_eq_getLast _ hne, ?_⟩
  rw [List.all_eq_true] at h
  exact h _ (List.getLast_mem hne)

/-- The shape of every successful match at the head of the input. -/
theorem matchHere_some (s : List Char) (m : Submatch) (h : matchHere s = some m) :
    m.pos.data ≠ [] ∧ m.pos.data.all isDigit = true ∧ (m.op = "=" ∨ m.op = ">") ∧
      m.value.data ≠ [] ∧ m.value.data.all isDigit = true ∧
      ∃ d, s.getLast? = some d ∧ isDigit d = true := by
  cases s with
  | nil => simp [matchHere] at h
  | cons b s1 =>
    unfold matchHere at h
    by_cases hb : (b == '[') = true
    · simp only [hb, if_true] at h
      cases hs1 : s1.dropWhile isDigit with
      | nil => simp [hs1] at h
      | cons e s2 =>
        simp only [hs1] at h
        by_cases hd : List.takeWhile isDigit s1 ≠ [] ∧ (e == ']') = true
        · simp only [hd, ne_eq, not_false_eq_true, and_self, if_true] at h
          cases s2 with
          | nil => simp at h
          | cons c s3 =>
            simp only at h
            by_cases hc : isOp c = true
            · simp [hc] at h
            · simp only [hc, Bool.false_eq_true, if_false] at h
              cases hs3 : s3.dropWhile isSpace with
              | nil => simp [hs3] at h
              | cons o s4 =>
                simp only [hs3] at h
                by_cases ho : isOp o = true
                · simp only [ho, if_true] at h
                  by_cases h5 : List.dropWhile isSpace s4 ≠ [] ∧
                      (List.dropWhile isSpace s4).all isDigit = true
                  · simp only [h5, ne_eq, not_false_eq_true, and_self, if_true] at h
                    injection h with h
                    subst h
                    refine ⟨hd.1, takeWhile_all _ _, ?_, h5.1, h5.2, ?_⟩
                    · simp only [isOp, Bool.or_eq_true, beq_iff_eq] at ho
                      rcases ho with ho | ho
                      · left; rw [ho]
                      · right; rw [ho]
                    · obtain ⟨d, hd1, hd2⟩ := getLast?_all isDigit _ h5.1 h5.2
                      refine ⟨d, ?_, hd2⟩
                      have e5 : s4.getLast? = some d := by
                        rw [getLast?_dropWhile isSpace s4 h5.1]; exact hd1
                      have e4 : (o :: s4).getLast? = some d := by
                        cases s4 with
                        | nil => simp at e5
                        | cons y ys => rw [List.getLast?_cons_cons]; exact e5
                      have e3 : s3.getLast? = some d := by
                        rw [getLast?_dropWhile isSpace s3 (by rw [hs3]; simp), hs3]; exact e4
                      have e2 : (e :: c :: s3).getLast? = some d := by
                        cases s3 with
                        | nil => simp at e3
                        | cons y ys =>
                          rw [List.getLast?_cons_cons, List.getLast?_cons_cons]; exact e3
                      have e1 : s1.getLast? = some d := by
                        rw [getLast?_dropWhile isDigit s1 (by rw [hs1]; simp), hs1]; exact e2
                      cases s1 with
                      | nil => simp at e1
                      | cons y ys => rw [List.getLast?_cons_cons]; exact e1
                  · rw [if_neg h5] at h; cases h
                · rw [if_neg ho] at h; cases h
        · rw [if_neg hd] at h; cases h
    · simp [hb] at h

theorem findSubmatch_some (s : List Char) (m : Submatch) (h : findSubmatch s = some m) :
    m.pos.data ≠ [] ∧ m.pos.data.all isDigit = true ∧ (m.op = "=" ∨ m.op = ">") ∧
      m.value.data ≠ [] ∧ m.value.data.all isDigit = true ∧
      ∃ d, s.getLast? = some d ∧ isDigit d = true := by
  induction s with
  | nil => simp [findSubmatch_nil] at h
  | cons c t ih =>
    rw [findSubmatch] at h
    cases hm : matchHere (c :: t) with
    | some m' =>
      simp only [hm] at h
      injection h with h
      subst h
      exact matchHere_some _ _ hm
    | none =>
      simp only [hm] at h
      obtain ⟨h1, h2, h3, h4, h5, d, hd1, hd2⟩ := ih h
      refine ⟨h1, h2, h3, h4, h5, d, ?_, hd2⟩
      cases t with
      | nil => simp at hd1
      | cons y ys => rw [List.getLast?_cons_cons]; exact hd1

theorem findStringSubmatch_none_of_matchString (e : String) (h : MatchString e = false) :
    FindStringSubmatch e = none := by
  unfold MatchString at h
  cases hf : FindStringSubmatch e with
  | none => rfl
  | some m => simp [hf] at h

theorem pluralLoop_single (t : String) (acc : List PluralRule) :
    pluralLoop [Arg.str t] acc = .ok acc := by
  rw [pluralLoop]

theorem pluralLoop_nil (acc : List PluralRule) : pluralLoop [] acc = .ok acc := by
  rw [pluralLoop]

theorem plural_single_congr (e1 e2 t : String)
    (h : FindStringSubmatch e1 = FindStringSubmatch e2) :
    Plural [Arg.str e1, Arg.str t] = Plural [Arg.str e2, Arg.str t] := by
  unfold Plural
  cases h2 : FindStringSubmatch e2 with
  | none =>
    rw [pluralLoop_no_match e1 t [] [] (h.trans h2), pluralLoop_no_match e2 t [] [] h2]
  | some m =>
    rw [pluralLoop_match e1 t [] [] m (h.trans h2), pluralLoop_match e2 t [] [] m h2]

theorem matchHere_nondigit (b x : Char) (xs : List Char) (hx : isDigit x = false) :
    matchHere (b :: x :: xs) = none := by
  unfold matchHere
  by_cases hb : (b == '[') = true
  · simp [hb, List.takeWhile_cons, List.dropWhile_cons, hx]
  · simp [hb]

theorem ne_bracket_of_isDigit (c : Char) (h : isDigit c = true) : c ≠ '[' := by
  rintro rfl; revert h; decide

theorem ne_bracket_of_isSpace (c : Char) (h : isSpace c = true) : c ≠ '[' := by
  rintro rfl; revert h; decide

theorem ne_bracket_of_isOp (c : Char) (h : isOp c = true) : c ≠ '[' := by
  rintro rfl; revert h; decide

theorem isDigit_of_isSpace (c : Char) (h : isSpace c = true) : isDigit c = false := by
  cases hd : isDigit c with
  | false => rfl
  | true => rw [isSpace_of_isDigit c hd] at h; cases h

theorem matchHere_exprChars_eq (N : List Char) (c : Char) (w1 : List Char) (op : Char)
    (w2 M : List Char) (hNd : N.all isDigit = true) (hc : isOp c = false)
    (hw1 : w1.all isSpace = true) (hop : isOp op = true) (hw2 : w2.all isSpace = true)
    (hMd : M.all isDigit = true) :
    matchHere (exprChars N c w1 op w2 M) =
      if N ≠ [] ∧ M ≠ [] then some ⟨String.mk N, String.mk [op], String.mk M⟩ else none := by
  have hb : isDigit ']' = false := by decide
  unfold matchHere exprChars
  simp only [beq_self_eq_true, if_true]
  rw [takeWhile_append_stop N ']' _ hNd hb, dropWhile_append_stop N ']' _ hNd hb]
  by_cases hN : N = []
  · simp [hN]
  · simp only [hN, ne_eq, not_false_eq_true, beq_self_eq_true, and_self, if_true, hc,
      true_and]
    rw [dropWhile_append_stop w1 op _ hw1 (isSpace_of_isOp op hop)]
    simp only [hop, if_true]
    rw [dropWhile_space_digits w2 M hw2 hMd]
    by_cases hM : M = []
    · simp [hM]
    · simp [hM, hMd]

theorem findSubmatch_exprChars_eq (N : List Char) (c : Char) (w1 : List Char) (op : Char)
    (w2 M : List Char) (hNd : N.all isDigit = true) (hc : isOp c = false)
    (hw1 : w1.all isSpace = true) (hop : isOp op = true) (hw2 : w2.all isSpace = true)
    (hMd : M.all isDigit = true) :
    findSubmatch (exprChars N c w1 op w2 M) =
      if N ≠ [] ∧ M ≠ [] then some ⟨String.mk N, String.mk [op], String.mk M⟩ else none := by
  have hrest : findSubmatch (N ++ ']' :: c :: (w1 ++ op :: (w2 ++ M))) = none := by
    have e1 : N ++ ']' :: c :: (w1 ++ op :: (w2 ++ M)) =
        (N ++ [']']) ++ (c :: (w1 ++ op :: (w2 ++ M))) := by simp
    rw [e1, findSubmatch_skip]
    · rw [findSubmatch]
      have hm : matchHere (c :: (w1 ++ op :: (w2 ++ M))) = none := by
        cases w1 with
        | nil => exact matchHere_nondigit c op _ (isDigit_of_isOp op hop)
        | cons x xs =>
          simp only [List.all_cons, Bool.and_eq_true] at hw1
          exact matchHere_nondigit c x _ (isDigit_of_isSpace x hw1.1)
      rw [hm]
      have e2 : w1 ++ op :: (w2 ++ M) = (w1 ++ op :: (w2 ++ M)) ++ [] := by simp
      rw [e2, findSubmatch_skip]
      · rfl
      · intro x hx
        rw [List.all_eq_true] at hw1 hw2 hMd
        simp only [List.mem_append, List.mem_cons] at hx
        rcases hx with hx | hx | hx | hx
        · exact ne_bracket_of_isSpace x (hw1 x hx)
        · rw [hx]; exact ne_bracket_of_isOp op hop
        · exact ne_bracket_of_isSpace x (hw2 x hx)
        · exact ne_bracket_of_isDigit x (hMd x hx)
    · intro x hx
      rw [List.all_eq_true] at hNd
      simp only [List.mem_append, List.mem_singleton] at hx
      rcases hx with hx | hx
      · exact ne_bracket_of_isDigit x (hNd x hx)
      · rw [hx]; decide
  have hm := matchHere_exprChars_eq N c w1 op w2 M hNd hc hw1 hop hw2 hMd
  unfold exprChars at hm ⊢
  rw [findSubmatch, hm, hrest]
  by_cases hNM : N ≠ [] ∧ M ≠ []
  · simp only [hNM, ne_eq, not_false_eq_true, and_self, if_true]
  · simp only [hNM, if_false]

theorem Atoi_saturates (ds : List Char) (hne : ds ≠ []) (hd : ds.all isDigit = true)
    (h : 2 ^ 63 ≤ decimalValue ds) : Atoi (String.mk ds) = 2 ^ 63 - 1 := by
  rw [Atoi_digits ds hne hd]
  have hle : ¬ decimalValue ds ≤ maxInt := by unfold maxInt; omega
  rw [if_neg hle]
  unfold maxInt
  norm_num

theorem Atoi_nonneg (ds : List Char) (hne : ds ≠ []) (hd : ds.all isDigit = true) :
    0 ≤ Atoi (String.mk ds) ∧ Atoi (String.mk ds) ≤ 2 ^ 63 - 1 := by
  rw [Atoi_digits ds hne hd]
  have hm : (maxInt : Int) = 2 ^ 63 - 1 := by unfold maxInt; norm_num
  split
  · rename_i h
    constructor
    · exact Int.natCast_nonneg _
    · rw [← hm]; exact_mod_cast h
  · rw [hm]; norm_num

theorem pairedAt_cons (x : String) (l : List String) (j : Nat) (r : PluralRule)
    (h : PairedAt l j r) : PairedAt (x :: l) (j + 1) r := by
  obtain ⟨e, t, h1, h2, h3⟩ := h
  exact ⟨e, t, by simpa using h1, by simpa using h2, h3⟩

theorem forall₂_pairedAt_shift (x : String) (l : List String) (js : List Nat)
    (rs : List PluralRule) (h : List.Forall₂ (PairedAt l) js rs) :
    List.Forall₂ (PairedAt (x :: l)) (js.map (· + 1)) rs := by
  induction h with
  | nil => exact List.Forall₂.nil
  | cons hp _ ih => exact List.Forall₂.cons (pairedAt_cons x l _ _ hp) ih

theorem chain'_shift (js : List Nat) (k : Nat) (h : List.Chain' (fun a b => a + 2 ≤ b) js) :
    List.Chain' (fun a b => a + 2 ≤ b) (js.map (· + k)) := by
  rw [List.chain'_map]
  exact h.imp (fun a b hab => by omega)

theorem pluralLoop_strings (n : Nat) : ∀ (l : List String), l.length ≤ n →
    ∀ acc : List PluralRule, ∃ rs js,
      pluralLoop (l.map Arg.str) acc = .ok (acc ++ rs) ∧
      List.Forall₂ (PairedAt l) js rs ∧
      List.Chain' (fun a b => a + 2 ≤ b) js ∧
      2 * rs.length ≤ l.length := by
  induction n with
  | zero =>
    intro l hl acc
    have : l = [] := List.length_eq_zero.1 (by omega)
    subst this
    exact ⟨[], [], by simp [pluralLoop_nil], List.Forall₂.nil, List.chain'_nil, by simp⟩
  | succ n ih =>
    intro l hl acc
    match l, hl with
    | [], _ => exact ⟨[], [], by simp [pluralLoop_nil], List.Forall₂.nil, List.chain'_nil, by simp⟩
    | [x], _ =>
      exact ⟨[], [], by simp [pluralLoop_single], List.Forall₂.nil, List.chain'_nil, by simp⟩
    | e :: t :: rest, hl =>
      simp only [List.length_cons] at hl
      cases hm : FindStringSubmatch e with
      | none =>
        obtain ⟨rs, js, h1, h2, h3, h4⟩ := ih (t :: rest) (by simp only [List.length_cons]; omega) acc
        refine ⟨rs, js.map (· + 1), ?_, forall₂_pairedAt_shift e _ js rs h2,
          chain'_shift js 1 h3, ?_⟩
        · simp only [List.map_cons] at h1 ⊢
          rw [pluralLoop_no_match e t _ acc hm]
          exact h1
        · simp only [List.length_cons] at h4 ⊢
          omega
      | some m =>
        obtain ⟨rs, js, h1, h2, h3, h4⟩ := ih rest (by omega) (acc ++ [compileRule m t])
        refine ⟨compileRule m t :: rs, 0 :: js.map (· + 2), ?_, ?_, ?_, ?_⟩
        · simp only [List.map_cons]
          rw [pluralLoop_match e t _ acc m hm, h1]
          simp
        · refine List.Forall₂.cons ?_ ?_
          · exact ⟨e, t, rfl, rfl, by simp [MatchString, hm], by simp [compilePair, hm], rfl⟩
          · have := forall₂_pairedAt_shift e _ _ rs (forall₂_pairedAt_shift t _ js rs h2)
            simpa [List.map_map, Function.comp] using this
        · rw [List.chain'_cons']
          refine ⟨?_, chain'_shift js 2 h3⟩
          intro y hy
          cases js with
          | nil => simp at hy
          | cons j js' =>
            simp only [List.map_cons, List.head?_cons, Option.mem_def, Option.some.injEq] at hy
            omega
        · simp only [List.length_cons]
          omega

theorem compilePair_pos (e t : String) (r : PluralRule) (h : compilePair e t = some r) :
    0 ≤ r.Pos ∧ r.Pos ≤ 2 ^ 63 - 1 ∧ 0 ≤ r.Value ∧ r.Value ≤ 2 ^ 63 - 1 ∧
      (r.Expr = "=" ∨ r.Expr = ">") := by
  unfold compilePair at h
  cases hm : FindStringSubmatch e with
  | none => simp [hm] at h
  | some m =>
    simp only [hm, Option.map_some'] at h
    injection h with h
    subst h
    obtain ⟨h1, h2, h3, h4, h5, _⟩ := findSubmatch_some e.data m hm
    have hp := Atoi_nonneg m.pos.data h1 h2
    have hv := Atoi_nonneg m.value.data h4 h5
    exact ⟨hp.1, hp.2, hv.1, hv.2, h3⟩

theorem forall₂_exists_left {R : Nat → PluralRule → Prop} {js : List Nat}
    {rs : List PluralRule} (h : List.Forall₂ R js rs) : ∀ r ∈ rs, ∃ j ∈ js, R j r := by
  induction h with
  | nil => intro r hr; cases hr
  | cons hp _ ih =>
    intro r hr
    rcases List.mem_cons.1 hr with h | h
    · subst h; exact ⟨_, List.mem_cons_self _ _, hp⟩
    · obtain ⟨j, hj, hR⟩ := ih r h
      exact ⟨j, List.mem_cons_of_mem _ hj, hR⟩

theorem forall₂_exists_right {R : Nat → PluralRule → Prop} {js : List Nat}
    {rs : List PluralRule} (h : List.Forall₂ R js rs) : ∀ j ∈ js, ∃ r ∈ rs, R j r := by
  induction h with
  | nil => intro j hj; cases hj
  | cons hp _ ih =>
    intro j hj
    rcases List.mem_cons.1 hj with h | h
    · subst h; exact ⟨_, List.mem_cons_self _ _, hp⟩
    · obtain ⟨r, hr, hR⟩ := ih j h
      exact ⟨r, List.mem_cons_of_mem _ hr, hR⟩

theorem poolGet_spec {Engine : Type} (w : World Engine) (pick : Option Nat) (hwf : w.wf) :
    (poolGet w pick).1 < (poolGet w pick).2.heap.length ∧
      (((poolGet w pick).1 ∈ w.ppFree ∧ (poolGet w pick).2.heap = w.heap) ∨
        ((poolGet w pick).1 = w.heap.length ∧
          (poolGet w pick).2.heap = w.heap ++ [⟨none, false⟩])) := by
  have hnew : (poolNew w).1 < (poolNew w).2.heap.length ∧
      (((poolNew w).1 ∈ w.ppFree ∧ (poolNew w).2.heap = w.heap) ∨
        ((poolNew w).1 = w.heap.length ∧
          (poolNew w).2.heap = w.heap ++ [⟨none, false⟩])) := by
    simp [poolNew]
  unfold poolGet
  cases pick with
  | none => exact hnew
  | some i =>
    cases h : w.ppFree.get? i with
    | none =>
      simp only [h]
      exact hnew
    | some a =>
      have hm : a ∈ w.ppFree := List.get?_mem h
      simp only [h]
      exact ⟨hwf a hm, Or.inl ⟨hm, trivial⟩⟩

/-! ## The claims -/

/-- C1. Selection semantics of `preArgs`: when the last argument is a rule list and
every rule examined references an in-range `int` argument, the format handed on is
the `Text` of the first rule in list order whose comparison holds, and the original
format when no comparison holds; the call returns exactly when the number of `%` in
that format is within the capacity of the argument slice.  In particular, of two
leading rules that both match, the first one's template is returned. -/
theorem preArgs_selects_first_match (format : String) (front : List Arg)
    (rules : List PluralRule) (spare : List Arg)
    (h : ∀ r ∈ examined (front ++ [Arg.rules rules]) rules,
      refersToInt (front ++ [Arg.rules rules]) r = true) :
    preArgs format ⟨front ++ [Arg.rules rules], spare⟩ =
        (if countPercent (selectFormat format (front ++ [Arg.rules rules]) rules) ≤
            (front ++ [Arg.rules rules]).length + spare.length then
          .ok (selectFormat format (front ++ [Arg.rules rules]) rules,
            ⟨(front ++ [Arg.rules rules] ++ spare).take
                (countPercent (selectFormat format (front ++ [Arg.rules rules]) rules)),
              (front ++ [Arg.rules rules] ++ spare).drop
                (countPercent (selectFormat format (front ++ [Arg.rules rules]) rules))⟩)
        else .error Fault.sliceBounds) ∧
      (∀ f' out, preArgs format ⟨front ++ [Arg.rules rules], spare⟩ = .ok (f', out) →
        f' = selectFormat format (front ++ [Arg.rules rules]) rules) ∧
      (∀ f' out, preArgs format ⟨front ++ [Arg.rules rules], spare⟩ = .ok (f', out) →
        (∀ r ∈ rules, ruleHolds (front ++ [Arg.rules rules]) r = false) → f' = format) ∧
      (∀ f' out R1 R2 tail, preArgs format ⟨front ++ [Arg.rules rules], spare⟩ = .ok (f', out) →
        rules = R1 :: R2 :: tail → ruleHolds (front ++ [Arg.rules rules]) R1 = true →
        ruleHolds (front ++ [Arg.rules rules]) R2 = true → f' = R1.Text) := by
  have hev := evalRules_eq_selectFormat format (front ++ [Arg.rules rules]) rules h
  have hsel : ∀ f' out, preArgs format ⟨front ++ [Arg.rules rules], spare⟩ = .ok (f', out) →
      f' = selectFormat format (front ++ [Arg.rules rules]) rules := by
    intro f' out hp
    have h1 := (preArgs_rules_ok format front rules spare f' out hp).1
    rw [hev] at h1
    injection h1 with h1
    exact h1.symm
  refine ⟨?_, hsel, ?_, ?_⟩
  · rw [preArgs_rules, hev]
    simp only [Slice.upTo, Slice.cap, Slice.backing]
    by_cases hc : countPercent (selectFormat format (front ++ [Arg.rules rules]) rules) ≤
        (front ++ [Arg.rules rules]).length + spare.length
    · simp only [hc, if_true]
    · simp only [hc, if_false]
  · intro f' out hp hno
    rw [hsel f' out hp]
    unfold selectFormat
    have : rules.find? (ruleHolds (front ++ [Arg.rules rules])) = none := by
      rw [List.find?_eq_none]
      intro r hr
      simp [hno r hr]
    rw [this]
  · intro f' out R1 R2 tail hp hrules h1 _
    rw [hsel f' out hp]
    subst hrules
    simp [selectFormat, List.find?, h1]

/-- Witness for C1: argument 2 against the rules `= 2` and `> 1`, both of which hold. -/
theorem preArgs_selects_first_match_witness :
    preArgs "%d items" ⟨[Arg.int 2, Arg.rules [⟨1, "=", 2, "a pair"⟩, ⟨1, ">", 1, "many"⟩]], []⟩ =
      .ok ("a pair", ⟨[], [Arg.int 2, Arg.rules [⟨1, "=", 2, "a pair"⟩, ⟨1, ">", 1, "many"⟩]]⟩) := by
  exact (preArgs_selects_first_match "%d items" [Arg.int 2]
    [⟨1, "=", 2, "a pair"⟩, ⟨1, ">", 1, "many"⟩] [] (by decide)).1.trans rfl

/-- Counterexample to C2 as stated: on a slice of length 1 and capacity 2 the format
`%%` makes `preArgs` return two arguments, which is no prefix of the one-element
original argument list. -/
theorem preArgs_truncation_counterexample :
    preArgs "%%" ⟨[Arg.rules []], [Arg.other 0]⟩ =
        .ok ("%%", ⟨[Arg.rules [], Arg.other 0], []⟩) ∧
      countPercent "%%" = 2 ∧
      [Arg.rules [], Arg.other 0] ≠ List.take (countPercent "%%") [Arg.rules []] := by
  refine ⟨rfl, rfl, ?_⟩
  decide

/-- C2 (amended). Truncation law of `preArgs`: when the last argument is a rule list
and `preArgs` returns, the resolved argument list has exactly as many elements as the
resolved format has `%` characters and consists of the first that many elements of
the argument slice's backing array (the original arguments followed by the spare
capacity); it is the leading prefix of the original argument list whenever the count
does not exceed the number of original arguments, in particular whenever the slice
has no spare capacity. -/
theorem preArgs_truncates (format : String) (front : List Arg) (rules : List PluralRule)
    (spare : List Arg) (f' : String) (out : Slice)
    (h : preArgs format ⟨front ++ [Arg.rules rules], spare⟩ = .ok (f', out)) :
    out.elems.length = countPercent f' ∧
      out.elems = (front ++ [Arg.rules rules] ++ spare).take (countPercent f') ∧
      (countPercent f' ≤ (front ++ [Arg.rules rules]).length →
        out.elems = (front ++ [Arg.rules rules]).take (countPercent f')) ∧
      (spare = [] → out.elems = (front ++ [Arg.rules rules]).take (countPercent f')) := by
  obtain ⟨_, hle, hout⟩ := preArgs_rules_ok format front rules spare f' out h
  subst hout
  refine ⟨?_, rfl, ?_, ?_⟩
  · simp only [List.length_take, List.length_append] at *
    omega
  · intro hc
    exact List.take_append_of_le_length hc
  · intro hs
    subst hs
    simp

/-- Witness for C2 (amended): three arguments, the selected template keeps one. -/
theorem preArgs_truncates_witness :
    preArgs "%d and %d" ⟨[Arg.int 1, Arg.int 7, Arg.rules [⟨1, "=", 1, "just %d"⟩]], []⟩ =
        .ok ("just %d", ⟨[Arg.int 1], [Arg.int 7, Arg.rules [⟨1, "=", 1, "just %d"⟩]]⟩) ∧
      ([Arg.int 1] : List Arg).length = countPercent "just %d" :=
  ⟨rfl, (preArgs_truncates "%d and %d" [Arg.int 1, Arg.int 7] [⟨1, "=", 1, "just %d"⟩] []
    "just %d" ⟨[Arg.int 1], [Arg.int 7, Arg.rules [⟨1, "=", 1, "just %d"⟩]]⟩ rfl).1⟩

/-- C3. Pass-through of `preArgs`: when the argument list is empty or its last element
is not a rule list, `preArgs` returns the format and the argument slice unchanged,
whatever the number of `%` characters in the format. -/
theorem preArgs_pass_through (format : String) (args : Slice)
    (h : args.elems = [] ∨ ∃ a, args.elems.getLast? = some a ∧ ∀ rs, a ≠ Arg.rules rs) :
    preArgs format args = .ok (format, args) := by
  unfold preArgs
  rcases h with h | ⟨a, ha, hne⟩
  · simp [Slice.len, h]
  · rw [ha]
    cases a with
    | rules rs => exact absurd rfl (hne rs)
    | int v => simp
    | str s => simp
    | other t => simp

/-- Witness for C3: a format with three `%` and two ordinary arguments. -/
theorem preArgs_pass_through_witness :
    preArgs "%d%% of %s" ⟨[Arg.int 5, Arg.str "x"], []⟩ =
      .ok ("%d%% of %s", ⟨[Arg.int 5, Arg.str "x"], []⟩) :=
  preArgs_pass_through "%d%% of %s" ⟨[Arg.int 5, Arg.str "x"], []⟩
    (Or.inr ⟨Arg.str "x", rfl, fun _ h => Arg.noConfusion h⟩)

/-- C4. End-to-end composition of `Plural` and `preArgs`: `Plural("[1]d=1", A,
"[1]d>1", B)` returns a rule list `rules` such that, for every default format `f`,
every `int` `n` and every spare capacity, `preArgs(f, n, rules)` resolves the format
to `A` when `n = 1`, to `B` when `n > 1` and to `f` when `n < 1`, whenever the chosen
format has at most two `%`; the arguments kept are the first `%`-count many.  With the
templates of scenarios 1 and 2, `n = 1` gives "you have one item" and `n = 5` gives
"you have many items", each with an empty argument list. -/
theorem plural_preArgs_scenarios :
    (∀ A B : String, ∃ rules,
      Plural [Arg.str "[1]d=1", Arg.str A, Arg.str "[1]d>1", Arg.str B] = .ok rules ∧
      ∀ (f : String) (n : Int) (spare : List Arg),
        (n = 1 → countPercent A ≤ 2 →
          preArgs f ⟨[Arg.int n, Arg.rules rules], spare⟩ =
            .ok (A, ⟨([Arg.int n, Arg.rules rules] ++ spare).take (countPercent A),
                     ([Arg.int n, Arg.rules rules] ++ spare).drop (countPercent A)⟩)) ∧
        (n > 1 → countPercent B ≤ 2 →
          preArgs f ⟨[Arg.int n, Arg.rules rules], spare⟩ =
            .ok (B, ⟨([Arg.int n, Arg.rules rules] ++ spare).take (countPercent B),
                     ([Arg.int n, Arg.rules rules] ++ spare).drop (countPercent B)⟩)) ∧
        (n < 1 → countPercent f ≤ 2 →
          preArgs f ⟨[Arg.int n, Arg.rules rules], spare⟩ =
            .ok (f, ⟨([Arg.int n, Arg.rules rules] ++ spare).take (countPercent f),
                     ([Arg.int n, Arg.rules rules] ++ spare).drop (countPercent f)⟩))) ∧
    (∃ rules,
      Plural [Arg.str "[1]d=1", Arg.str "you have one item",
          Arg.str "[1]d>1", Arg.str "you have many items"] = .ok rules ∧
      ∀ (f : String) (spare : List Arg),
        preArgs f ⟨[Arg.int 1, Arg.rules rules], spare⟩ =
          .ok ("you have one item", ⟨[], [Arg.int 1, Arg.rules rules] ++ spare⟩) ∧
        preArgs f ⟨[Arg.int 5, Arg.rules rules], spare⟩ =
          .ok ("you have many items", ⟨[], [Arg.int 5, Arg.rules rules] ++ spare⟩)) := by
  constructor
  · intro A B
    refine ⟨_, plural_two_rules A B, ?_⟩
    intro f n spare
    refine ⟨?_, ?_, ?_⟩
    · intro hn hc
      exact preArgs_two_rules A B f n spare A (by simp [hn]) hc
    · intro hn hc
      have h1 : n ≠ 1 := by omega
      exact preArgs_two_rules A B f n spare B (by simp [h1, hn]) hc
    · intro hn hc
      have h1 : n ≠ 1 := by omega
      have h2 : ¬ n > 1 := by omega
      exact preArgs_two_rules A B f n spare f (by simp [h1, h2]) hc
  · refine ⟨_, plural_two_rules _ _, ?_⟩
    intro f spare
    constructor
    · exact preArgs_two_rules _ _ f 1 spare "you have one item" rfl (by decide)
    · exact preArgs_two_rules _ _ f 5 spare "you have many items" rfl (by decide)

/-- Witness for C4: the templates "one: %d" and "many: %d" with `n = 1`, `n = 7` and
`n = 0`. -/
theorem plural_preArgs_scenarios_witness :
    ∃ rules,
      Plural [Arg.str "[1]d=1", Arg.str "one: %d", Arg.str "[1]d>1", Arg.str "many: %d"] =
        .ok rules ∧
      preArgs "none" ⟨[Arg.int 1, Arg.rules rules], []⟩ =
        .ok ("one: %d", ⟨[Arg.int 1], [Arg.rules rules]⟩) ∧
      preArgs "none" ⟨[Arg.int 7, Arg.rules rules], []⟩ =
        .ok ("many: %d", ⟨[Arg.int 7], [Arg.rules rules]⟩) ∧
      preArgs "none" ⟨[Arg.int 0, Arg.rules rules], []⟩ =
        .ok ("none", ⟨[], [Arg.int 0, Arg.rules rules]⟩) :=
  match plural_preArgs_scenarios.1 "one: %d" "many: %d" with
  | ⟨rules, hp, h⟩ =>
    ⟨rules, hp, ((h "none" 1 []).1 rfl (by decide)).trans rfl,
      ((h "none" 7 []).2.1 (by decide) (by decide)).trans rfl,
      ((h "none" 0 []).2.2 (by decide) (by decide)).trans rfl⟩

/-- Counterexample to C5 as stated: `[1]==1` is well-formed in the grammar as worded
(position `1`, any-char `=`, operator `=`, threshold `1`), yet `Plural` produces no
rule for the pair. -/
theorem plural_well_formed_counterexample :
    WellFormedAsStated "[1]==1" ∧ Plural [Arg.str "[1]==1", Arg.str "T"] = .ok [] := by
  refine ⟨⟨['1'], '=', [], '=', [], ['1'], rfl, ?_⟩, rfl⟩
  decide

/-- C5 (amended). For every sequence of (expression, template) pairs in which every
expression is well-formed per the grammar `[<position>]<any-char><operator><threshold>`
with any-char a single character other than `=` and `>`, `Plural` returns exactly one
rule per pair, in input order: the i-th rule is the rule compiled from the i-th
expression and carries the i-th template as `Text`. -/
theorem plural_one_rule_per_pair (pairs : List (String × String))
    (h : ∀ p ∈ pairs, WellFormed p.1) :
    ∃ rules, Plural (flatten pairs) = .ok rules ∧
      rules.length = pairs.length ∧
      rules.map (fun r => r.Text) = pairs.map (fun p => p.2) ∧
      List.Forall₂ (fun p r => compilePair p.1 p.2 = some r ∧ r.Text = p.2) pairs rules := by
  obtain ⟨rs, hrs, hall⟩ := pluralLoop_flatten pairs h []
  refine ⟨rs, by simpa [Plural] using hrs, hall.length_eq.symm, ?_, hall⟩
  clear hrs h
  induction hall with
  | nil => rfl
  | cons hp _ ih => simp [hp.2, ih]

/-- Witness for C5 (amended): two well-formed pairs, the second with whitespace around
the operator. -/
theorem plural_one_rule_per_pair_witness :
    ∃ rules, Plural (flatten [("[1]d=1", "one"), ("[2]x > 10", "many")]) = .ok rules ∧
      rules.length = 2 ∧ rules.map (fun r => r.Text) = ["one", "many"] := by
  have hwf : ∀ p ∈ [("[1]d=1", "one"), ("[2]x > 10", "many")], WellFormed p.1 := by
    intro p hp
    simp only [List.mem_cons, List.mem_singleton, List.not_mem_nil, or_false] at hp
    rcases hp with hp | hp
    · subst hp
      exact ⟨['1'], 'd', [], '=', [], ['1'], rfl, by decide⟩
    · subst hp
      exact ⟨['2'], 'x', [' '], '>', [' '], ['1', '0'], rfl, by decide⟩
  obtain ⟨rules, h1, h2, h3, _⟩ :=
    plural_one_rule_per_pair [("[1]d=1", "one"), ("[2]x > 10", "many")] hwf
  exact ⟨rules, h1, h2, h3⟩

/-- C6 (evaluation at the failing input). Neither `bad` nor `X` matches the grammar,
so the pairs `(bad, [1]d=1)` and `(X, Y)` should give no rule; the code reads the
template `[1]d=1` of the malformed first pair as an expression and compiles it with
`X` as its template. -/
theorem plural_reads_template_as_expression :
    MatchString "bad" = false ∧ MatchString "X" = false ∧
      Plural [Arg.str "bad", Arg.str "[1]d=1", Arg.str "X", Arg.str "Y"] =
        .ok [⟨1, "=", 1, "X"⟩] :=
  ⟨rfl, rfl, rfl⟩

/-- C7. Field values of a compiled rule: for all natural numbers `N` and `M` below
`2^63` written in decimal, every character `c` other than `=` and `>`, every operator
`op` among `=` and `>`, optional whitespace `w1`, `w2` around the operator and every
template `t`, `Plural("[N]c" ++ w1 ++ op ++ w2 ++ "M", t)` returns exactly one rule,
with `Pos = N`, `Expr = op`, `Value = M` and `Text = t`; for instance `[1]d=1` gives
`{1, "=", 1, t}` and `[2]d>3` gives `{2, ">", 3, t}`. -/
theorem plural_rule_fields :
    (∀ (N M : Nat) (c : Char) (w1 op w2 t : String), N < 2 ^ 63 → M < 2 ^ 63 →
      c ≠ '=' → c ≠ '>' → (op = "=" ∨ op = ">") →
      w1.data.all isSpace = true → w2.data.all isSpace = true →
      Plural [Arg.str ("[" ++ Nat.repr N ++ "]" ++ String.singleton c ++ w1 ++ op ++ w2 ++
          Nat.repr M), Arg.str t] =
        .ok [⟨(N : Int), op, (M : Int), t⟩]) ∧
    (∀ t : String, Plural [Arg.str "[1]d=1", Arg.str t] = .ok [⟨1, "=", 1, t⟩]) ∧
    (∀ t : String, Plural [Arg.str "[2]d>3", Arg.str t] = .ok [⟨2, ">", 3, t⟩]) := by
  refine ⟨?_, fun _ => rfl, fun _ => rfl⟩
  intro N M c w1 op w2 t hN hM hc1 hc2 hop hw1 hw2
  obtain ⟨hNne, hNd, _⟩ := toDigits_spec N
  obtain ⟨hMne, hMd, _⟩ := toDigits_spec M
  have hc : isOp c = false := by simp [isOp, hc1, hc2]
  obtain ⟨o, ho, hoo⟩ : ∃ o : Char, op = String.mk [o] ∧ isOp o = true := by
    rcases hop with h | h
    · exact ⟨'=', h, by decide⟩
    · exact ⟨'>', h, by decide⟩
  have hdata : ("[" ++ Nat.repr N ++ "]" ++ String.singleton c ++ w1 ++ op ++ w2 ++
      Nat.repr M).data =
      exprChars (Nat.toDigits 10 N) c w1.data o w2.data (Nat.toDigits 10 M) := by
    subst ho
    simp [exprChars, Nat.repr, List.asString]
  have hm := findStringSubmatch_of_data _ _ c _ o _ _ hdata hNne hNd hc hw1 hoo hw2 hMne hMd
  unfold Plural
  rw [pluralLoop_match _ t [] [] _ hm]
  have h1 : Atoi (String.mk (Nat.toDigits 10 N)) = (N : Int) := Atoi_repr N hN
  have h2 : Atoi (String.mk (Nat.toDigits 10 M)) = (M : Int) := Atoi_repr M hM
  simp [pluralLoop, compileRule, h1, h2, ho]

/-- Witness for C7: the expression `[12]d > 345`. -/
theorem plural_rule_fields_witness :
    Plural [Arg.str ("[" ++ Nat.repr 12 ++ "]" ++ String.singleton 'd' ++ " " ++ ">" ++ " " ++
      Nat.repr 345), Arg.str "many"] = .ok [⟨12, ">", 345, "many"⟩] :=
  plural_rule_fields.1 12 345 'd' " " ">" " " "many" (by decide) (by decide) (by decide)
    (by decide) (Or.inr rfl) (by decide) (by decide)

/-- C8. Fault on an unusable rule position: when the last argument is a rule list and
no rule before `bad` matches, a rule `bad` whose `Pos` is 0, or exceeds the number of
arguments, or equals the number of arguments (the trailing rule list itself), or
designates any other argument that is not an `int`, makes `preArgs` fault and return
no result.  Conversely, after a first matching rule `m` the remaining rules `post` are
never examined: whatever their positions, `preArgs` returns the template of `m`
(provided its `%` count is within the slice capacity). -/
theorem preArgs_bad_position (format : String) (front spare : List Arg) :
    (∀ (pre : List PluralRule) (bad : PluralRule) (post : List PluralRule),
      (∀ r ∈ pre, ruleHolds (front ++ [Arg.rules (pre ++ bad :: post)]) r = false) →
      (bad.Pos = 0 ∨
        ((front ++ [Arg.rules (pre ++ bad :: post)]).length : Int) < bad.Pos ∨
        bad.Pos = ((front ++ [Arg.rules (pre ++ bad :: post)]).length : Int) ∨
        (∃ a, argAt (front ++ [Arg.rules (pre ++ bad :: post)]) bad.Pos = some a ∧
          ∀ v, a ≠ Arg.int v)) →
      ∃ e, preArgs format ⟨front ++ [Arg.rules (pre ++ bad :: post)], spare⟩ = .error e) ∧
    (∀ (pre : List PluralRule) (m : PluralRule) (post : List PluralRule),
      (∀ r ∈ pre, refersToInt (front ++ [Arg.rules (pre ++ m :: post)]) r = true ∧
        ruleHolds (front ++ [Arg.rules (pre ++ m :: post)]) r = false) →
      ruleHolds (front ++ [Arg.rules (pre ++ m :: post)]) m = true →
      countPercent m.Text ≤ (front ++ [Arg.rules (pre ++ m :: post)]).length + spare.length →
      preArgs format ⟨front ++ [Arg.rules (pre ++ m :: post)], spare⟩ =
        .ok (m.Text,
          ⟨(front ++ [Arg.rules (pre ++ m :: post)] ++ spare).take (countPercent m.Text),
           (front ++ [Arg.rules (pre ++ m :: post)] ++ spare).drop (countPercent m.Text)⟩)) := by
  constructor
  · intro pre bad post hpre hbad
    have hb : refersToInt (front ++ [Arg.rules (pre ++ bad :: post)]) bad = false := by
      apply not_refersToInt_of_bad
      rcases hbad with h | h | h | h
      · exact Or.inl h
      · exact Or.inr (Or.inl h)
      · exact Or.inr (Or.inr ⟨_, argAt_last front _ bad.Pos h, fun v hv => Arg.noConfusion hv⟩)
      · exact Or.inr (Or.inr h)
    obtain ⟨e, he⟩ := evalRules_fault format _ pre post bad hpre hb
    refine ⟨e, ?_⟩
    rw [preArgs_rules, he]
  · intro pre m post hpre hm hc
    have hno : ∀ r ∈ pre, ruleHolds (front ++ [Arg.rules (pre ++ m :: post)]) r = false :=
      fun r hr => (hpre r hr).2
    have hex : ∀ r ∈ examined (front ++ [Arg.rules (pre ++ m :: post)]) (pre ++ m :: post),
        refersToInt (front ++ [Arg.rules (pre ++ m :: post)]) r = true := by
      rw [examined_append_match _ pre post m hno hm]
      intro r hr
      rcases List.mem_append.1 hr with h | h
      · exact (hpre r h).1
      · rw [List.mem_singleton.1 h]
        exact refersToInt_of_ruleHolds _ _ hm
    have hev := evalRules_eq_selectFormat format _ _ hex
    rw [selectFormat_append_match format _ pre post m hno hm] at hev
    rw [preArgs_of_evalRules_ok format front _ spare m.Text hev, if_pos hc]

/-- Witness for C8: position 0, position 3 of 2, position 2 (the rule list) and a
string argument each fault; a rule with position 0 behind a matching rule does not. -/
theorem preArgs_bad_position_witness :
    (∃ e, preArgs "%d" ⟨[Arg.int 2, Arg.rules [⟨1, "=", 1, "one"⟩, ⟨0, "=", 1, "x"⟩]], []⟩ =
      .error e) ∧
    preArgs "%d" ⟨[Arg.int 1, Arg.rules [⟨1, "=", 1, "one"⟩, ⟨0, "=", 1, "x"⟩]], []⟩ =
      .ok ("one", ⟨[], [Arg.int 1, Arg.rules [⟨1, "=", 1, "one"⟩, ⟨0, "=", 1, "x"⟩]]⟩) :=
  ⟨(preArgs_bad_position "%d" [Arg.int 2] []).1 [⟨1, "=", 1, "one"⟩] ⟨0, "=", 1, "x"⟩ []
      (by decide) (Or.inl rfl),
   (preArgs_bad_position "%d" [Arg.int 1] []).2 [] ⟨1, "=", 1, "one"⟩ [⟨0, "=", 1, "x"⟩]
      (by decide) (by decide) (by decide)⟩

/-- Counterexample to C9 as stated: with two arguments and a format of three `%`,
`preArgs` does not return a shortened argument list, it faults on the slice bound. -/
theorem preArgs_insufficient_counterexample :
    countPercent "%d %d %d" = 3 ∧
      preArgs "%d %d %d" ⟨[Arg.int 1, Arg.rules []], []⟩ = .error Fault.sliceBounds ∧
      ¬ ∃ r, preArgs "%d %d %d" ⟨[Arg.int 1, Arg.rules []], []⟩ = .ok r := by
  refine ⟨rfl, rfl, ?_⟩
  rintro ⟨r, hr⟩
  have h : preArgs "%d %d %d" ⟨[Arg.int 1, Arg.rules []], []⟩ = .error Fault.sliceBounds := rfl
  rw [h] at hr
  cases hr

/-- C9 (amended). Insufficient arguments: when the last argument is a rule list, rule
evaluation succeeds and the number of `%` in the finally chosen format exceeds the
capacity of the argument slice (for a plain variadic call: the number of arguments
supplied), `preArgs` faults with a slice-bounds panic and returns nothing; and whenever
it does return, the argument list is never shorter than the placeholder count. -/
theorem preArgs_insufficient_faults (format : String) (front : List Arg)
    (rules : List PluralRule) (spare : List Arg)
    (hex : ∀ r ∈ examined (front ++ [Arg.rules rules]) rules,
      refersToInt (front ++ [Arg.rules rules]) r = true)
    (hc : (front ++ [Arg.rules rules]).length + spare.length <
      countPercent (selectFormat format (front ++ [Arg.rules rules]) rules)) :
    preArgs format ⟨front ++ [Arg.rules rules], spare⟩ = .error Fault.sliceBounds ∧
      ∀ (f : String) (fr : List Arg) (rs : List PluralRule) (sp : List Arg) (f' : String)
        (out : Slice), preArgs f ⟨fr ++ [Arg.rules rs], sp⟩ = .ok (f', out) →
        out.elems.length = countPercent f' := by
  constructor
  · have hev := evalRules_eq_selectFormat format _ _ hex
    rw [preArgs_of_evalRules_ok format front rules spare _ hev, if_neg (by omega)]
  · intro f fr rs sp f' out h
    obtain ⟨_, hle, hout⟩ := preArgs_rules_ok f fr rs sp f' out h
    subst hout
    simp only [List.length_take, List.length_append] at *
    omega

/-- Witness for C9 (amended): two arguments supplied, the matching template wants
three. -/
theorem preArgs_insufficient_faults_witness :
    preArgs "%d" ⟨[Arg.int 1, Arg.rules [⟨1, "=", 1, "%d of %d in %d"⟩]], []⟩ =
      .error Fault.sliceBounds :=
  (preArgs_insufficient_faults "%d" [Arg.int 1] [⟨1, "=", 1, "%d of %d in %d"⟩] []
    (by decide) (by decide)).1

/-- Counterexample to C10 as stated: with two arguments and a format of two `%` the
trailing rule list is still in the resolved argument list. -/
theorem preArgs_drops_rules_counterexample :
    preArgs "%d%d" ⟨[Arg.int 1, Arg.rules []], []⟩ =
        .ok ("%d%d", ⟨[Arg.int 1, Arg.rules []], []⟩) ∧
      ¬ ([Arg.int 1, Arg.rules []] : List Arg).length ≤
        ([Arg.int 1, Arg.rules []] : List Arg).length - 1 := by
  refine ⟨rfl, ?_⟩
  decide

/-- C10 (amended). The trailing rule list is dropped when the template needs fewer
arguments than were passed: if the last argument is a rule list, `preArgs` returns and
the resolved format has fewer `%` than there are original arguments, the resolved
argument list is a prefix of the arguments preceding the rule list, so its length is
at most the number of original arguments minus one. -/
theorem preArgs_drops_rules (format : String) (front : List Arg) (rules : List PluralRule)
    (spare : List Arg) (f' : String) (out : Slice)
    (h : preArgs format ⟨front ++ [Arg.rules rules], spare⟩ = .ok (f', out))
    (hc : countPercent f' < (front ++ [Arg.rules rules]).length) :
    out.elems = front.take (countPercent f') ∧
      out.elems.length ≤ (front ++ [Arg.rules rules]).length - 1 := by
  obtain ⟨_, _, hout⟩ := preArgs_rules_ok format front rules spare f' out h
  subst hout
  have hle : countPercent f' ≤ front.length := by
    simp only [List.length_append, List.length_singleton] at hc
    omega
  have h1 : (front ++ [Arg.rules rules] ++ spare).take (countPercent f') =
      front.take (countPercent f') := by
    rw [List.append_assoc, List.take_append_of_le_length hle]
  refine ⟨h1, ?_⟩
  show ((front ++ [Arg.rules rules] ++ spare).take (countPercent f')).length ≤ _
  rw [h1]
  simp only [List.length_take, List.length_append, List.length_singleton]
  omega

/-- Witness for C10 (amended): one `%` and two arguments, the rule list is dropped. -/
theorem preArgs_drops_rules_witness :
    ([Arg.int 3] : List Arg) = List.take (countPercent "%d left") [Arg.int 3] ∧
      ([Arg.int 3] : List Arg).length ≤ ([Arg.int 3] ++ [Arg.rules []]).length - 1 :=
  preArgs_drops_rules "%d left" [Arg.int 3] [] [] "%d left"
    ⟨[Arg.int 3], [Arg.rules []]⟩ rfl (by decide)

/-- Counterexample to C11 as stated: scenario 3 with the default format `no items`.  No
rule matches the argument 0, yet the resolved argument list is empty, not `[0]`. -/
theorem preArgs_fallback_counterexample :
    (∀ r ∈ [(⟨1, "=", 1, "you have one item"⟩ : PluralRule), ⟨1, ">", 1, "you have many items"⟩],
      ruleHolds [Arg.int 0, Arg.rules [⟨1, "=", 1, "you have one item"⟩,
        ⟨1, ">", 1, "you have many items"⟩]] r = false) ∧
    preArgs "no items" ⟨[Arg.int 0, Arg.rules [⟨1, "=", 1, "you have one item"⟩,
        ⟨1, ">", 1, "you have many items"⟩]], []⟩ =
      .ok ("no items", ⟨[], [Arg.int 0, Arg.rules [⟨1, "=", 1, "you have one item"⟩,
        ⟨1, ">", 1, "you have many items"⟩]]⟩) ∧
    ([] : List Arg) ≠ [Arg.int 0] := by
  refine ⟨by decide, rfl, by decide⟩

/-- C11 (amended). Fallback: for every format and every argument list `args ++ [rules]`
in which no rule matches, `preArgs`, when it returns, returns the original format and
the first `n` elements of the argument slice, `n` being the number of `%` in the
format; the resolved argument list equals `args` exactly when `n` is the length of
`args`, and in that case (every rule referencing an in-range `int`) the call does
return `args`. -/
theorem preArgs_fallback (format : String) (args : List Arg) (rules : List PluralRule)
    (spare : List Arg)
    (hno : ∀ r ∈ rules, ruleHolds (args ++ [Arg.rules rules]) r = false) :
    (∀ f' out, preArgs format ⟨args ++ [Arg.rules rules], spare⟩ = .ok (f', out) →
      f' = format ∧
      out.elems = (args ++ [Arg.rules rules] ++ spare).take (countPercent format) ∧
      (out.elems = args ↔ countPercent format = args.length)) ∧
    ((∀ r ∈ rules, refersToInt (args ++ [Arg.rules rules]) r = true) →
      countPercent format = args.length →
      preArgs format ⟨args ++ [Arg.rules rules], spare⟩ =
        .ok (format, ⟨args, Arg.rules rules :: spare⟩)) := by
  constructor
  · intro f' out h
    obtain ⟨hev, hle, hout⟩ := preArgs_rules_ok format args rules spare f' out h
    have hf : f' = format := evalRules_no_match format _ rules hno f' hev
    subst hf
    subst hout
    refine ⟨rfl, rfl, ?_⟩
    constructor
    · intro he
      have hl := congrArg List.length he
      simp only [List.length_take, List.length_append, List.length_singleton] at hl hle
      omega
    · intro hc
      show (args ++ [Arg.rules rules] ++ spare).take (countPercent f') = args
      rw [hc, List.append_assoc, List.take_left]
  · intro href hc
    have hex : ∀ r ∈ examined (args ++ [Arg.rules rules]) rules,
        refersToInt (args ++ [Arg.rules rules]) r = true :=
      fun r hr => href r (mem_of_mem_examined _ rules r hr)
    have hev := evalRules_eq_selectFormat format _ rules hex
    have hsel : selectFormat format (args ++ [Arg.rules rules]) rules = format := by
      unfold selectFormat
      have : rules.find? (ruleHolds (args ++ [Arg.rules rules])) = none := by
        rw [List.find?_eq_none]
        intro r hr
        simp [hno r hr]
      rw [this]
    rw [hsel] at hev
    rw [preArgs_of_evalRules_ok format args rules spare format hev, hc]
    simp
    omega

/-- Witness for C11 (amended): scenario 3 with a default format of one `%`. -/
theorem preArgs_fallback_witness :
    preArgs "%d items" ⟨[Arg.int 0, Arg.rules [⟨1, "=", 1, "one"⟩, ⟨1, ">", 1, "many"⟩]], []⟩ =
      .ok ("%d items", ⟨[Arg.int 0], [Arg.rules [⟨1, "=", 1, "one"⟩, ⟨1, ">", 1, "many"⟩]]⟩) :=
  (preArgs_fallback "%d items" [Arg.int 0] [⟨1, "=", 1, "one"⟩, ⟨1, ">", 1, "many"⟩] []
    (by decide)).2 (by decide) rfl

/-- Counterexample to C12 as stated: the expression `[0]d=1` matches the grammar and is
compiled to a rule with position 0. -/
theorem plural_position_counterexample :
    Plural [Arg.str "[0]d=1", Arg.str "t"] = .ok [⟨0, "=", 1, "t"⟩] ∧
      ¬ (1 ≤ (⟨0, "=", 1, "t"⟩ : PluralRule).Pos) := by
  refine ⟨rfl, ?_⟩
  decide

/-- C12 (amended). Data-model invariant on position: for every sequence of strings
passed to `Plural`, the call returns and every rule in the returned list has a
non-negative position within the `int` range, `0 <= Pos <= 2^63 - 1`; position 0 is
possible. -/
theorem plural_position_nonneg (cases : List String) :
    ∃ rules, Plural (cases.map Arg.str) = .ok rules ∧
      ∀ r ∈ rules, 0 ≤ r.Pos ∧ r.Pos ≤ 2 ^ 63 - 1 := by
  obtain ⟨rs, js, h1, h2, _, _⟩ := pluralLoop_strings cases.length cases (le_refl _) []
  refine ⟨rs, by simpa [Plural] using h1, ?_⟩
  intro r hr
  obtain ⟨j, _, e, t, _, _, _, hc, _⟩ := forall₂_exists_left h2 r hr
  have := compilePair_pos e t r hc
  exact ⟨this.1, this.2.1⟩

/-- C13. Skipping a malformed pair: for all strings `e` and `t` that both fail to match
the expression grammar and every sequence of strings `rest`,
`Plural([e, t] ++ rest) = Plural(rest)`; for instance
`Plural("bad-expr", "X", "[2]d=1", "Y")` returns exactly the rule
`{Pos: 2, Expr: "=", Value: 1, Text: "Y"}`. -/
theorem plural_skips_malformed_pair :
    (∀ (e t : String) (rest : List String), MatchString e = false → MatchString t = false →
      Plural (Arg.str e :: Arg.str t :: rest.map Arg.str) = Plural (rest.map Arg.str)) ∧
    Plural [Arg.str "bad-expr", Arg.str "X", Arg.str "[2]d=1", Arg.str "Y"] =
      .ok [⟨2, "=", 1, "Y"⟩] := by
  refine ⟨?_, rfl⟩
  intro e t rest he ht
  unfold Plural
  rw [pluralLoop_no_match e t _ [] (findStringSubmatch_none_of_matchString e he)]
  cases rest with
  | nil => rw [List.map_nil, pluralLoop_single, pluralLoop_nil]
  | cons x xs =>
    rw [List.map_cons, pluralLoop_no_match t x _ [] (findStringSubmatch_none_of_matchString t ht)]

/-- Witness for C13: the malformed pair `("bad-expr", "X")` in front of one valid pair. -/
theorem plural_skips_malformed_pair_witness :
    Plural (Arg.str "bad-expr" :: Arg.str "X" :: ["[2]d=1", "Y"].map Arg.str) =
      Plural (["[2]d=1", "Y"].map Arg.str) :=
  plural_skips_malformed_pair.1 "bad-expr" "X" ["[2]d=1", "Y"] rfl rfl

/-- C14 (evaluation at the failing input). The four-element sequence ends in the
expression-shaped string `[2]d=2`; because the malformed first element shifted the
pairing by one, that string is read as an expression, and an appended fifth element
`Z` becomes its template and adds a rule. -/
theorem plural_dangling_element_read :
    Plural [Arg.str "bad", Arg.str "[1]d=1", Arg.str "X", Arg.str "[2]d=2"] =
        .ok [⟨1, "=", 1, "X"⟩] ∧
      Plural ([Arg.str "bad", Arg.str "[1]d=1", Arg.str "X", Arg.str "[2]d=2"] ++
          [Arg.str "Z"]) = .ok [⟨1, "=", 1, "X"⟩, ⟨2, "=", 2, "Z"⟩] :=
  ⟨rfl, rfl⟩

/-- C15. Whitespace tolerance around the operator: for all strings of decimal digits
`N` and `M`, every character `c` other than `=` and `>`, every operator `op` among `=`
and `>`, all whitespace strings `w1`, `w2` and every template `t`,
`Plural("[N]c" ++ w1 ++ op ++ w2 ++ M, t) = Plural("[N]c" ++ op ++ M, t)`; when `N` and
`M` are non-empty both are the one rule compiled from `N`, `op`, `M` and `t`. -/
theorem plural_whitespace_tolerant (N M w1 w2 t : String) (c op : Char)
    (hN : N.data.all isDigit = true) (hM : M.data.all isDigit = true)
    (hc1 : c ≠ '=') (hc2 : c ≠ '>') (hop : op = '=' ∨ op = '>')
    (hw1 : w1.data.all isSpace = true) (hw2 : w2.data.all isSpace = true) :
    Plural [Arg.str ("[" ++ N ++ "]" ++ String.singleton c ++ w1 ++ String.singleton op ++
        w2 ++ M), Arg.str t] =
      Plural [Arg.str ("[" ++ N ++ "]" ++ String.singleton c ++ String.singleton op ++ M),
        Arg.str t] ∧
    (N ≠ "" → M ≠ "" →
      Plural [Arg.str ("[" ++ N ++ "]" ++ String.singleton c ++ w1 ++ String.singleton op ++
        w2 ++ M), Arg.str t] = .ok [⟨Atoi N, String.singleton op, Atoi M, t⟩]) := by
  have hc : isOp c = false := by simp [isOp, hc1, hc2]
  have hoo : isOp op = true := by
    rcases hop with h | h <;> (rw [h]; decide)
  have hd1 : ("[" ++ N ++ "]" ++ String.singleton c ++ w1 ++ String.singleton op ++
      w2 ++ M).data = exprChars N.data c w1.data op w2.data M.data := by
    simp [exprChars]
  have hd2 : ("[" ++ N ++ "]" ++ String.singleton c ++ String.singleton op ++ M).data =
      exprChars N.data c [] op [] M.data := by
    simp [exprChars]
  have h1 : FindStringSubmatch ("[" ++ N ++ "]" ++ String.singleton c ++ w1 ++
      String.singleton op ++ w2 ++ M) =
      if N.data ≠ [] ∧ M.data ≠ [] then some ⟨String.mk N.data, String.mk [op], String.mk M.data⟩
      else none := by
    unfold FindStringSubmatch
    rw [hd1]
    exact findSubmatch_exprChars_eq _ c _ op _ _ hN hc hw1 hoo hw2 hM
  have h2 : FindStringSubmatch ("[" ++ N ++ "]" ++ String.singleton c ++
      String.singleton op ++ M) =
      if N.data ≠ [] ∧ M.data ≠ [] then some ⟨String.mk N.data, String.mk [op], String.mk M.data⟩
      else none := by
    unfold FindStringSubmatch
    rw [hd2]
    exact findSubmatch_exprChars_eq _ c _ op _ _ hN hc rfl hoo rfl hM
  refine ⟨plural_single_congr _ _ t (h1.trans h2.symm), ?_⟩
  intro hNe hMe
  have hN' : N.data ≠ [] := fun h => hNe (by cases N; simp_all)
  have hM' : M.data ≠ [] := fun h => hMe (by cases M; simp_all)
  rw [if_pos ⟨hN', hM'⟩] at h1
  unfold Plural
  rw [pluralLoop_match _ t [] [] _ h1, pluralLoop_nil]
  rfl

/-- Witness for C15: tab and spaces around `>` in `[3]d>10`. -/
theorem plural_whitespace_tolerant_witness :
    Plural [Arg.str ("[" ++ "3" ++ "]" ++ String.singleton 'd' ++ "\t " ++
        String.singleton '>' ++ "  " ++ "10"), Arg.str "many"] =
      Plural [Arg.str ("[" ++ "3" ++ "]" ++ String.singleton 'd' ++ String.singleton '>' ++
        "10"), Arg.str "many"] :=
  (plural_whitespace_tolerant "3" "10" "\t " "  " "many" 'd' '>' (by decide) (by decide)
    (by decide) (by decide) (Or.inr rfl) (by decide) (by decide)).1

/-- C16. End anchoring of the threshold: for every expression whose last character is
not an ASCII decimal digit and every template `t`, `Plural(expr, t)` returns the empty
rule list. -/
theorem plural_end_anchored (expr t : String) (c : Char)
    (hlast : expr.data.getLast? = some c) (hc : isDigit c = false) :
    Plural [Arg.str expr, Arg.str t] = .ok [] := by
  have hnone : FindStringSubmatch expr = none := by
    cases hf : FindStringSubmatch expr with
    | none => rfl
    | some m =>
      obtain ⟨_, _, _, _, _, d, hd1, hd2⟩ := findSubmatch_some expr.data m hf
      rw [hlast] at hd1
      injection hd1 with hd1
      rw [hd1, hd2] at hc
      cases hc
  unfold Plural
  rw [pluralLoop_no_match expr t [] [] hnone, pluralLoop_single]

/-- Witness for C16: a valid expression followed by a space. -/
theorem plural_end_anchored_witness :
    Plural [Arg.str "[1]d=1 ", Arg.str "one"] = .ok [] :=
  plural_end_anchored "[1]d=1 " "one" ' ' rfl (by decide)

/-- C17. Pool discipline: with the pool an explicit collection of handles and the
engine constructor an abstract function, whatever handle the pool hands out (a fresh
one, or one bound to any engine before and released), `NewPrinter(lang)` returns a
handle whose engine field is exactly `newEngine(tag)`, `tag` being `lang` itself for a
language tag, `Make(lang)` for a string and the zero tag otherwise; the handle is one
of the pool or a fresh one, its mutex and all other handles are untouched.  In
particular a handle released by `Close` and taken again is rebound wholesale. -/
theorem newPrinter_rebinds {Tag Engine : Type} (zeroTag : Tag) (Make : String → Tag)
    (newEngine : Tag → Engine) (lang : LangArg Tag) (pick : Option Nat) (w : World Engine)
    (hwf : w.wf) :
    (∃ p w' obj, NewPrinter zeroTag Make newEngine lang pick w = .ok (p, w') ∧
      w'.heap.get? p = some obj ∧
      (∀ t, lang = LangArg.tag t → obj.Printer = some (newEngine t)) ∧
      (∀ s, lang = LangArg.str s → obj.Printer = some (newEngine (Make s))) ∧
      (∀ n, lang = LangArg.other n → obj.Printer = some (newEngine zeroTag)) ∧
      ((p ∈ w.ppFree ∧ ∃ old, w.heap.get? p = some old ∧ obj.locked = old.locked) ∨
        (p = w.heap.length ∧ obj.locked = false)) ∧
      (∀ q, q ≠ p → q < w.heap.length → w'.heap.get? q = w.heap.get? q)) ∧
    (∀ p old, w.heap.get? p = some old →
      NewPrinter zeroTag Make newEngine lang (some 0) (Close p w) =
        .ok (p, ⟨w.heap.set p { old with
          Printer := some (newEngine (langTagOf zeroTag Make lang)) }, w.ppFree⟩)) := by
  constructor
  · obtain ⟨hlt, hcase⟩ := poolGet_spec w pick hwf
    unfold NewPrinter
    generalize poolGet w pick = g at hlt hcase
    obtain ⟨p, w1⟩ := g
    simp only at hlt hcase ⊢
    obtain ⟨old, hold⟩ : ∃ old, w1.heap.get? p = some old :=
      ⟨w1.heap.get ⟨p, hlt⟩, List.get?_eq_get hlt⟩
    rw [hold]
    refine ⟨p, _, { old with Printer := some (newEngine (langTagOf zeroTag Make lang)) },
      rfl, ?_, ?_, ?_, ?_, ?_, ?_⟩
    · simp [List.getElem?_set, hlt]
    · intro t ht; subst ht; rfl
    · intro s hs; subst hs; rfl
    · intro n hn; subst hn; rfl
    · rcases hcase with ⟨hm, hh⟩ | ⟨hp, hh⟩
      · left
        rw [hh] at hold
        exact ⟨hm, old, hold, rfl⟩
      · right
        refine ⟨hp, ?_⟩
        rw [hh, hp] at hold
        simp at hold
        rw [← hold]
    · intro q hq hql
      have hne : p ≠ q := fun h => hq h.symm
      simp only [List.get?_eq_getElem?, List.getElem?_set_ne hne]
      rcases hcase with ⟨_, hh⟩ | ⟨_, hh⟩
      · rw [hh]
      · rw [hh, List.getElem?_append_left hql]
  · intro p old hold
    have hold' : w.heap[p]? = some old := by simpa using hold
    simp [NewPrinter, poolGet, Close, hold']

/-- Witness for C17: tags and engines are strings; handle 0, bound to the French engine
and released, is taken again for `en-US`. -/
theorem newPrinter_rebinds_witness :
    NewPrinter "und" (fun s => s) (fun t => "engine " ++ t) (LangArg.str "en-US") (some 0)
        (Close 0 ⟨[⟨some "engine fr", false⟩], []⟩) =
      .ok (0, ⟨[⟨some "engine en-US", false⟩], []⟩) :=
  (newPrinter_rebinds "und" (fun s => s) (fun t => "engine " ++ t) (LangArg.str "en-US")
    (some 0) ⟨[⟨some "engine fr", false⟩], []⟩
    (fun a ha => absurd ha (List.not_mem_nil a))).2 0 ⟨some "engine fr", false⟩ rfl

/-- C18. The expression grammar is not anchored at the start: for every leading string
without a `[` and every expression `e`, `Plural(lead ++ e, t) = Plural(e, t)`; for a
valid `e` both are the one rule compiled from `e` and `t`.  In particular `%[1]d=1`
compiles to the same rule as `[1]d=1`. -/
theorem plural_not_start_anchored :
    (∀ (lead e t : String), (∀ x ∈ lead.data, x ≠ '[') →
      Plural [Arg.str (lead ++ e), Arg.str t] = Plural [Arg.str e, Arg.str t]) ∧
    (∀ (lead e t : String), (∀ x ∈ lead.data, x ≠ '[') → WellFormed e →
      ∃ r, compilePair e t = some r ∧ Plural [Arg.str e, Arg.str t] = .ok [r] ∧
        Plural [Arg.str (lead ++ e), Arg.str t] = .ok [r]) ∧
    (∀ t : String, Plural [Arg.str "%[1]d=1", Arg.str t] = .ok [⟨1, "=", 1, t⟩] ∧
      Plural [Arg.str "[1]d=1", Arg.str t] = .ok [⟨1, "=", 1, t⟩]) := by
  have hfind : ∀ (lead e : String), (∀ x ∈ lead.data, x ≠ '[') →
      FindStringSubmatch (lead ++ e) = FindStringSubmatch e := by
    intro lead e h
    unfold FindStringSubmatch
    rw [String.data_append]
    exact findSubmatch_skip _ _ h
  refine ⟨?_, ?_, fun t => ⟨rfl, rfl⟩⟩
  · intro lead e t h
    exact plural_single_congr _ _ t (hfind lead e h)
  · intro lead e t h hwf
    obtain ⟨m, hm⟩ := findStringSubmatch_wellFormed e hwf
    refine ⟨compileRule m t, by simp [compilePair, hm], ?_, ?_⟩
    · unfold Plural
      rw [pluralLoop_match e t [] [] m hm, pluralLoop_nil]
      rfl
    · unfold Plural
      rw [pluralLoop_match _ t [] [] m ((hfind lead e h).trans hm), pluralLoop_nil]
      rfl

/-- Witness for C18: the leading text `if %` in front of `[2]d>3`. -/
theorem plural_not_start_anchored_witness :
    Plural [Arg.str ("if %" ++ "[2]d>3"), Arg.str "many"] =
      Plural [Arg.str "[2]d>3", Arg.str "many"] :=
  plural_not_start_anchored.1 "if %" "[2]d>3" "many" (by decide)

/-- C19. Pairing invariant of `Plural`: for every sequence of strings `cases`, `Plural`
returns a list of rules `r_1, ..., r_m` for which there are indices `j_1, ..., j_m`
with `j_(k+1) >= j_k + 2` and `j_k + 1 < len(cases)` such that `cases[j_k]` matches the
expression grammar, `r_k` is the rule compiled from `cases[j_k]` and
`r_k.Text = cases[j_k + 1]`; consequently `m <= len(cases) / 2`. -/
theorem plural_pairing_invariant (cases : List String) :
    ∃ rules js, Plural (cases.map Arg.str) = .ok rules ∧
      js.length = rules.length ∧
      List.Forall₂ (PairedAt cases) js rules ∧
      List.Chain' (fun a b => a + 2 ≤ b) js ∧
      (∀ j ∈ js, j + 1 < cases.length) ∧
      rules.length ≤ cases.length / 2 := by
  obtain ⟨rs, js, h1, h2, h3, h4⟩ := pluralLoop_strings cases.length cases (le_refl _) []
  refine ⟨rs, js, by simpa [Plural] using h1, h2.length_eq, h2, h3, ?_, by omega⟩
  intro j hj
  obtain ⟨r, _, e, t, _, ht, _⟩ := forall₂_exists_right h2 j hj
  exact (List.get?_eq_some.1 ht).1

/-- C20. Saturation on numeric overflow: an expression that matches the grammar is
compiled to a rule whatever the size of its numbers; a threshold digit string denoting
`2^63` or more gives `Value = 2^63 - 1`, a position digit string denoting `2^63` or more
gives `Pos = 2^63 - 1`.  For instance the threshold `9223372036854775808` is stored as
`9223372036854775807`. -/
theorem plural_saturates :
    (∀ (N M w1 w2 : List Char) (c op : Char) (t : String),
      N ≠ [] → N.all isDigit = true → M ≠ [] → M.all isDigit = true → isOp c = false →
      isOp op = true → w1.all isSpace = true → w2.all isSpace = true →
      ∃ r, Plural [Arg.str (String.mk (exprChars N c w1 op w2 M)), Arg.str t] = .ok [r] ∧
        r.Expr = String.mk [op] ∧ r.Text = t ∧
        (2 ^ 63 ≤ decimalValue M → r.Value = 2 ^ 63 - 1) ∧
        (2 ^ 63 ≤ decimalValue N → r.Pos = 2 ^ 63 - 1)) ∧
    (∀ t : String, Plural [Arg.str "[1]d=9223372036854775808", Arg.str t] =
      .ok [⟨1, "=", 9223372036854775807, t⟩]) ∧
    (∀ t : String, Plural [Arg.str "[18446744073709551616]d>0", Arg.str t] =
      .ok [⟨9223372036854775807, ">", 0, t⟩]) := by
  refine ⟨?_, fun t => rfl, fun t => rfl⟩
  intro N M w1 w2 c op t hN hNd hM hMd hc hop hw1 hw2
  have hm := findStringSubmatch_of_data (String.mk (exprChars N c w1 op w2 M)) N c w1 op w2 M
    rfl hN hNd hc hw1 hop hw2 hM hMd
  refine ⟨compileRule ⟨String.mk N, String.mk [op], String.mk M⟩ t, ?_, rfl, rfl, ?_, ?_⟩
  · unfold Plural
    rw [pluralLoop_match _ t [] [] _ hm, pluralLoop_nil]
    rfl
  · intro h
    exact Atoi_saturates M hM hMd h
  · intro h
    exact Atoi_saturates N hN hNd h

/-- Witness for C20: position 2 and the threshold `2^64`. -/
theorem plural_saturates_witness :
    ∃ r, Plural [Arg.str (String.mk (exprChars ['2'] 'd' [] '>' [' ']
        "18446744073709551616".data)), Arg.str "huge"] = .ok [r] ∧
      r.Value = 2 ^ 63 - 1 :=
  match plural_saturates.1 ['2'] "18446744073709551616".data [] [' '] 'd' '>' "huge"
    (by decide) (by decide) (by decide) (by decide) (by decide) (by decide) (by decide)
    (by decide) with
  | ⟨r, h1, _, _, h4, _⟩ => ⟨r, h1, h4 (by decide)⟩

end I18n
